import Mathlib

/-!
Monte-Carlo tree search over tic-tac-toe (`src/mcts_tictactoe.cpp`).

A shallow embedding of the reference board game (`TicTacToeState`), of the search
tree (`MCTSNode`) and of the engine (`MCTS`), followed by the properties of the
specification that were checked against it.

Conventions of the embedding.

* C++ `int` is `Int`.  The board cells are in `{-1, 0, 1}` and the player is `1` or
  `-1` in every state that `main` builds, and `visits` is bounded by the iteration
  count, so no machine overflow is involved.  The public constructor of
  `TicTacToeState` accepts any board and any player, the player `0` included; the
  properties say which states they are about.
* A store into the board outside its nine cells, a vector access outside the vector
  and a member access through a null pointer are faults: the run ends there with a
  value of `Fault`, as it does for an exception.
* `double wins` is a rational number: the accumulator only ever receives `0`, `0.5`
  and `1`, which are added exactly.
* The UCT score of `best_uct_child` is a `double` computed with `std::sqrt` and
  `std::log`.  The model computes it in exact rational arithmetic over two functions
  that are parameters of the engine; rounding is not modelled, so the model fixes the
  structure of the selection (which children are compared, in which order, and what a
  child without visits does), not the outcome of a comparison of two scores.
* The `while` loop of the rollout has no bound in the source; the model gives it a
  fuel and reports when the fuel runs out.  Nine rounds suffice whenever the player
  is not `0`; with the player `0` no fuel suffices.
* A node pointer is the list of child indices leading from the node up to the root
  (`[]` is the root); `node->parent` is the tail of that list.
* The random stream is an arbitrary sequence of raw draws;
  `uniform_int_distribution(0, k-1)` reduces the next draw into `0 .. k-1`, so every
  sequence of choices the program can make arises from some stream.
-/

namespace MCTSTicTacToe

/-! ## Faults -/

/-- The ways in which a run of the engine can stop without a result. -/
inductive Fault where
  /-- The `runtime_error` thrown by `clone_state`. -/
  | clone_unsupported
  /-- A member access through a null node pointer. -/
  | null_node
  /-- An element access outside a vector, or outside the board array. -/
  | bad_index
  /-- The rollout loop was still running when the fuel of the model was used up. -/
  | out_of_fuel
  /-- An exception thrown by a member function of another implementation of
  `GameState`. -/
  | game_error
  deriving DecidableEq, Repr

/-! ## The reference game -/

/-- The 3x3 board game state: `board` (0 empty, 1 player one, -1 player two) and the
player to move. -/
structure TicTacToeState where
  board : Fin 9 → Int
  player : Int

namespace TicTacToeState

/-- The default constructor `TicTacToeState()`: empty board, player 1 to move. -/
def init : TicTacToeState := ⟨fun _ => 0, 1⟩

/-- Member `current_player()`. -/
def current_player (s : TicTacToeState) : Int := s.player

/-- Member `legal_actions()`: the indices `0 .. 8` of the empty cells, in increasing
order. -/
def legal_actions (s : TicTacToeState) : List Int :=
  ((List.finRange 9).filter (fun i => decide (s.board i = 0))).map (fun i => (i.val : Int))

/-- The array store `nb[action] = v` for an `action` of `0 .. 8`, seen from the nine
cells of `nb`: cell `i` receives the value exactly when `i = action`. -/
def store (b : Fin 9 → Int) (action : Int) (v : Int) : Fin 9 → Int :=
  fun i => if (i.val : Int) = action then v else b i

/-- The state that `next_state(action)` returns when its store is inside the board:
the mover in cell `action`, the turn handed to the other player. -/
def after (s : TicTacToeState) (action : Int) : TicTacToeState :=
  ⟨store s.board action s.player, -s.player⟩

/-- Member `next_state(action)`: copy the board, store the mover at `nb[action]`, hand
the turn to the other player.  `nb` is a `std::array<int, 9>` and the member checks
nothing: for an `action` outside `0 .. 8` the store is outside the array, a fault. -/
def next_state (s : TicTacToeState) (action : Int) : Except Fault TicTacToeState :=
  if 0 ≤ action ∧ action < 9 then Except.ok (s.after action)
  else Except.error Fault.bad_index

/-- Member `clone()`. -/
def clone (s : TicTacToeState) : TicTacToeState := ⟨s.board, s.player⟩

/-- The table `lines` of `winner()`: rows, columns, diagonals. -/
def lines : List (Fin 9 × Fin 9 × Fin 9) :=
  [(0, 1, 2), (3, 4, 5), (6, 7, 8), (0, 3, 6), (1, 4, 7), (2, 5, 8), (0, 4, 8), (2, 4, 6)]

/-- The loop of `winner()` over the remaining lines. -/
def winner_loop (b : Fin 9 → Int) : List (Fin 9 × Fin 9 × Fin 9) → Int
  | [] => 0
  | ln :: rest =>
    let s := b ln.1 + b ln.2.1 + b ln.2.2
    if s = 3 then 1
    else if s = -3 then -1
    else winner_loop b rest

/-- Member `winner()`. -/
def winner (s : TicTacToeState) : Int := winner_loop s.board lines

/-- The loop of `is_terminal()` over the remaining cells: `false` at the first empty
cell, `true` when none is left. -/
def full_loop (b : Fin 9 → Int) : List (Fin 9) → Bool
  | [] => true
  | i :: rest => if b i = 0 then false else full_loop b rest

/-- Member `is_terminal()`. -/
def is_terminal (s : TicTacToeState) : Bool :=
  if s.winner ≠ 0 then true else full_loop s.board (List.finRange 9)

end TicTacToeState

/-! ## The abstract interface -/

/-- An object of a class derived from `GameState` other than `TicTacToeState` itself:
its own state type, the object, its six virtual member functions, and the outcome of
`dynamic_cast<const TicTacToeState *>` on it, which is the `TicTacToeState` part of
the object when its class is derived from `TicTacToeState` and `none` (the null
pointer) otherwise.  `next_state` and `current_player`, the two members that the
engine calls on such an object, may end with an exception. -/
structure OtherGame where
  State : Type
  self : State
  current_player : State → Except Fault Int
  legal_actions : State → List Int
  next_state : State → Int → Except Fault State
  is_terminal : State → Bool
  winner : State → Int
  clone : State → State
  as_tictactoe : State → Option TicTacToeState

/-- A `const GameState &`: an object whose dynamic type is `TicTacToeState`, or an
object of some other class derived from `GameState`. -/
inductive GameState where
  | tictactoe (t : TicTacToeState)
  | other (g : OtherGame)

namespace GameState

/-- Virtual call `next_state(action)`. -/
def next_state : GameState → Int → Except Fault GameState
  | tictactoe t, a =>
    match t.next_state a with
    | Except.error e => Except.error e
    | Except.ok t1 => Except.ok (tictactoe t1)
  | other g, a =>
    match g.next_state g.self a with
    | Except.error e => Except.error e
    | Except.ok st => Except.ok (other ⟨g.State, st, g.current_player, g.legal_actions,
        g.next_state, g.is_terminal, g.winner, g.clone, g.as_tictactoe⟩)

/-- Virtual call `current_player()`. -/
def current_player : GameState → Except Fault Int
  | tictactoe t => Except.ok t.current_player
  | other g => g.current_player g.self

/-- Virtual call `legal_actions()`. -/
def legal_actions : GameState → List Int
  | tictactoe t => t.legal_actions
  | other g => g.legal_actions g.self

/-- Virtual call `is_terminal()`. -/
def is_terminal : GameState → Bool
  | tictactoe t => t.is_terminal
  | other g => g.is_terminal g.self

/-- Virtual call `winner()`. -/
def winner : GameState → Int
  | tictactoe t => t.winner
  | other g => g.winner g.self

/-- Virtual call `clone()`. -/
def clone : GameState → GameState
  | tictactoe t => tictactoe t.clone
  | other g => other ⟨g.State, g.clone g.self, g.current_player, g.legal_actions,
      g.next_state, g.is_terminal, g.winner, g.clone, g.as_tictactoe⟩

end GameState

/-! ## The search tree -/

/-- A search-tree node.  The `parent` pointer is not stored: a node is addressed by
its position in the tree (see `Ptr`).  The state owned by a node of the tree that the
loop works on always has dynamic type `TicTacToeState`: it comes from
`make_unique<TicTacToeState>` in `clone_state` or in `TicTacToeState::next_state`. -/
inductive MCTSNode where
  | mk (action_from_parent : Int) (player_to_move : Int) (wins : ℚ) (visits : Int)
      (state : TicTacToeState) (children : List MCTSNode)

namespace MCTSNode

/-- Field `action_from_parent`. -/
def action_from_parent : MCTSNode → Int
  | mk a _ _ _ _ _ => a

/-- Field `player_to_move`. -/
def player_to_move : MCTSNode → Int
  | mk _ p _ _ _ _ => p

/-- Field `wins`. -/
def wins : MCTSNode → ℚ
  | mk _ _ w _ _ _ => w

/-- Field `visits`. -/
def visits : MCTSNode → Int
  | mk _ _ _ v _ _ => v

/-- Field `state`. -/
def state : MCTSNode → TicTacToeState
  | mk _ _ _ _ s _ => s

/-- Field `children`. -/
def children : MCTSNode → List MCTSNode
  | mk _ _ _ _ _ c => c

/-- The constructor `MCTSNode(s, parent_, action_)`: no children, `wins = 0`,
`visits = 0`, `player_to_move = s->current_player()`. -/
def new (s : TicTacToeState) (action : Int) : MCTSNode :=
  mk action s.current_player 0 0 s []

/-- The node with its child vector replaced. -/
def with_children : MCTSNode → List MCTSNode → MCTSNode
  | mk a p w v s _, cs => mk a p w v s cs

/-- The effect of `children.push_back(child)`. -/
def push_child (n : MCTSNode) (child : MCTSNode) : MCTSNode :=
  n.with_children (n.children ++ [child])

/-- Member `is_fully_expanded()`. -/
def is_fully_expanded (n : MCTSNode) : Bool :=
  decide ((n.children.length : Int) = (n.state.legal_actions.length : Int))

/-- Member `is_leaf()`. -/
def is_leaf (n : MCTSNode) : Bool := n.children.isEmpty

end MCTSNode

/-- A node pointer: the child indices from the node up to the root, nearest first.
The root is `[]`; the parent of `i :: up` is `up`. -/
abbrev Ptr := List Nat

/-- The node reached from `nd` by following child indices, outermost first. -/
def get_at : MCTSNode → List Nat → Option MCTSNode
  | nd, [] => some nd
  | nd, i :: p =>
    match nd.children[i]? with
    | none => none
    | some c => get_at c p

/-- The node a pointer refers to in the tree under `root`. -/
def deref (root : MCTSNode) (node : Ptr) : Option MCTSNode := get_at root node.reverse

/-- Apply `f` to the element of index `i`. -/
def modify_nth (f : MCTSNode → MCTSNode) : List MCTSNode → Nat → List MCTSNode
  | [], _ => []
  | c :: cs, 0 => f c :: cs
  | c :: cs, i + 1 => c :: modify_nth f cs i

/-- The tree in which the node reached from `nd` by the child indices (outermost
first) has been replaced by its image under `f`. -/
def modify_at (f : MCTSNode → MCTSNode) : MCTSNode → List Nat → MCTSNode
  | nd, [] => f nd
  | nd, i :: p => nd.with_children (modify_nth (fun c => modify_at f c p) nd.children i)

/-- An in-place update of the node a pointer refers to. -/
def update (root : MCTSNode) (node : Ptr) (f : MCTSNode → MCTSNode) : MCTSNode :=
  modify_at f root node.reverse

/-! ## The random stream -/

/-- The generator: the sequence of raw draws it produces, and how many of them
have been consumed. -/
structure Rng where
  draws : Nat → Nat
  pos : Nat

/-- One evaluation of `dist(rng())` for `uniform_int_distribution<int> dist(0, size - 1)`:
a value of `0 .. size - 1`, and the generator advanced by one draw. -/
def uniform_int (rng : Rng) (size : Nat) : Nat × Rng :=
  (rng.draws rng.pos % size, ⟨rng.draws, rng.pos + 1⟩)

/-! ## The engine -/

/-- The engine object: its two data members, and the library functions `sqrt` and
`log` that `best_uct_child` calls. -/
structure MCTS where
  iterations_ : Int
  C_ : ℚ
  sqrt : ℚ → ℚ
  log : ℚ → ℚ

/-- Member `clone_state`: the `dynamic_cast` to `TicTacToeState`, the copy
`make_unique<TicTacToeState>(*ts)` of the `TicTacToeState` part when the cast
succeeds, and the throw when it fails. -/
def clone_state : GameState → Except Fault TicTacToeState
  | GameState.tictactoe t => Except.ok ⟨t.board, t.player⟩
  | GameState.other g =>
    match g.as_tictactoe g.self with
    | some t => Except.ok ⟨t.board, t.player⟩
    | none => Except.error Fault.clone_unsupported

/-- The vector `untried` that `expand` computes: the legal actions of the node, in
order, that are the `action_from_parent` of no child (the set `used`). -/
def untried_actions (nd : MCTSNode) : List Int :=
  let acts := nd.state.legal_actions
  let used := nd.children.map MCTSNode.action_from_parent
  acts.filter (fun a => !used.contains a)

/-- Member `expand` on the node `nd` that `node` points to: the untried actions, one
draw, the new child appended to `nd`; the result is the pointer to the new child, or
`node` itself when no action is untried. -/
def expand (root : MCTSNode) (nd : MCTSNode) (node : Ptr) (rng : Rng) :
    Except Fault (MCTSNode × Ptr × Rng) :=
  let untried := untried_actions nd
  if untried.isEmpty then Except.ok (root, node, rng)
  else
    let d := uniform_int rng untried.length
    match untried[d.1]? with
    | none => Except.error Fault.bad_index
    | some act =>
      match nd.state.next_state act with
      | Except.error e => Except.error e
      | Except.ok st =>
        let child := MCTSNode.new st act
        Except.ok (update root node (fun n => n.push_child child), nd.children.length :: node, d.2)

/-- The comparison `uct > best_score`, where `none` is the initial minus infinity. -/
def exceeds (uct : ℚ) : Option ℚ → Bool
  | none => true
  | some b => decide (uct > b)

/-- The loop of `best_uct_child` over the remaining children; `i` is the index of the
first of them, the result is the index of the chosen child (`none` is `nullptr`).
The score is the exact rational counterpart of the `double` of the source. -/
def best_uct_loop (m : MCTS) (parent_visits : Int) :
    List MCTSNode → Nat → Option ℚ → Option Nat → Option Nat
  | [], _, _, best => best
  | c :: cs, i, best_score, best =>
    if c.visits = 0 then some i
    else
      let win_rate := c.wins / (c.visits : ℚ)
      let uct := win_rate + m.C_ * m.sqrt (m.log (parent_visits : ℚ) / (c.visits : ℚ))
      if exceeds uct best_score then best_uct_loop m parent_visits cs (i + 1) (some uct) (some i)
      else best_uct_loop m parent_visits cs (i + 1) best_score best

/-- Member `best_uct_child`. -/
def best_uct_child (m : MCTS) (nd : MCTSNode) : Option Nat :=
  best_uct_loop m nd.visits nd.children 0 none none

/-- Member `tree_policy`, at the node `nd` that `node` points to. -/
def tree_policy (m : MCTS) (root : MCTSNode) (nd : MCTSNode) (node : Ptr) (rng : Rng) :
    Except Fault (MCTSNode × Ptr × Rng) :=
  if nd.state.is_terminal then Except.ok (root, node, rng)
  else if !nd.is_fully_expanded then expand root nd node rng
  else
    match best_uct_child m nd with
    | none => Except.error Fault.null_node
    | some i =>
      match _hc : nd.children[i]? with
      | none => Except.error Fault.null_node
      | some c => tree_policy m root c (i :: node) rng
termination_by sizeOf nd
decreasing_by
  have hlt := List.sizeOf_lt_of_mem (List.getElem?_mem _hc)
  cases nd with
  | mk a p w v s cs =>
    simp only [MCTSNode.children] at hlt
    simp only [MCTSNode.mk.sizeOf_spec]
    omega

/-- The `while` loop of `default_policy`.  The source loop has no bound; the model
runs at most `fuel` rounds and reports `out_of_fuel` if the state is still not
terminal then. -/
def rollout : Nat → TicTacToeState → Rng → Except Fault (TicTacToeState × Rng)
  | fuel, sim, rng =>
    if sim.is_terminal then Except.ok (sim, rng)
    else
      match fuel with
      | 0 => Except.error Fault.out_of_fuel
      | fuel + 1 =>
        let acts := sim.legal_actions
        let d := uniform_int rng acts.length
        match acts[d.1]? with
        | none => Except.error Fault.bad_index
        | some a =>
          match sim.next_state a with
          | Except.error e => Except.error e
          | Except.ok sim1 => rollout fuel sim1 d.2

/-- The reward returned by `default_policy` for the winner `w` of the final state. -/
def reward_of (w : Int) : ℚ :=
  if w = 1 then 1 else if w = -1 then 0 else 1 / 2

/-- Member `default_policy`. -/
def default_policy (fuel : Nat) (state : GameState) (rng : Rng) : Except Fault (ℚ × Rng) :=
  match clone_state state with
  | Except.error e => Except.error e
  | Except.ok sim =>
    match rollout fuel sim rng with
    | Except.error e => Except.error e
    | Except.ok (t, rng1) => Except.ok (reward_of t.winner, rng1)

/-- The body of the loop of `backup` at one node. -/
def backup_step (reward : ℚ) : MCTSNode → MCTSNode
  | MCTSNode.mk a p w v s cs =>
    MCTSNode.mk a p (if reward = 1 / 2 then w + 1 / 2 else w + reward) (v + 1) s cs

/-- Member `backup`: update the node, then go to its parent, until the root has been
updated. -/
def backup (reward : ℚ) : MCTSNode → Ptr → MCTSNode
  | root, [] => update root [] (backup_step reward)
  | root, i :: up => backup reward (update root (i :: up) (backup_step reward)) up

/-- One round of the loop of `search`. -/
def iteration (m : MCTS) (fuel : Nat) (root : MCTSNode) (rng : Rng) :
    Except Fault (MCTSNode × Rng) :=
  match tree_policy m root root [] rng with
  | Except.error e => Except.error e
  | Except.ok (root1, node, rng1) =>
    match deref root1 node with
    | none => Except.error Fault.null_node
    | some nd =>
      match default_policy fuel (GameState.tictactoe nd.state) rng1 with
      | Except.error e => Except.error e
      | Except.ok (reward, rng2) => Except.ok (backup reward root1 node, rng2)

/-- The loop `for (it = 0; it < iterations_; ++it)` of `search`, with `n` rounds left. -/
def search_loop (m : MCTS) (fuel : Nat) : Nat → MCTSNode → Rng → Except Fault (MCTSNode × Rng)
  | 0, root, rng => Except.ok (root, rng)
  | n + 1, root, rng =>
    match iteration m fuel root rng with
    | Except.error e => Except.error e
    | Except.ok (root1, rng1) => search_loop m fuel n root1 rng1

/-- The final loop of `search` over the remaining children of the root, with the
running `best` and `best_visits`. -/
def most_visited_loop : List MCTSNode → Option MCTSNode → Int → Option MCTSNode
  | [], best, _ => best
  | c :: cs, best, best_visits =>
    if c.visits > best_visits then most_visited_loop cs (some c) c.visits
    else most_visited_loop cs best best_visits

/-- The end of `search`: the action of the most visited child, or `-1`. -/
def best_action (root : MCTSNode) : Int :=
  match most_visited_loop root.children none (-1) with
  | none => -1
  | some best => best.action_from_parent

/-- The state handed to the first `make_unique<MCTSNode>` of `search` (lines 141-143):
the value of the call `root_state.next_state(-1)`. -/
def first_root_state (root_state : GameState) : Except Fault GameState :=
  root_state.next_state (-1)

/-- The first statement of `search` (lines 141-143): `root_state.next_state(-1)` is
evaluated and a node is built for its value, whose constructor asks that state for
`current_player()`.  The node is replaced two statements later (line 148) and nothing
reads it, so all that remains of the statement is whether it completes. -/
def first_root (root_state : GameState) : Except Fault Unit :=
  match first_root_state root_state with
  | Except.error e => Except.error e
  | Except.ok st =>
    match st.current_player with
    | Except.error e => Except.error e
    | Except.ok _ => Except.ok ()

/-- The root that `search` works on (line 148): a node for the copy of the state. -/
def root_node (st : TicTacToeState) : MCTSNode := MCTSNode.new st (-1)

/-- Member `search`: the first root (lines 141-143), the root for the copy of the
state (line 148), the loop (lines 150-154) and the selection (lines 156-169). -/
def search (m : MCTS) (fuel : Nat) (root_state : GameState) (rng : Rng) : Except Fault Int :=
  match first_root root_state with
  | Except.error e => Except.error e
  | Except.ok _ =>
    match clone_state root_state with
    | Except.error e => Except.error e
    | Except.ok st =>
      match search_loop m fuel m.iterations_.toNat (root_node st) rng with
      | Except.error e => Except.error e
      | Except.ok (root, _) => Except.ok (best_action root)

/-! ## Vocabulary of the properties -/

/-- Every node of the tree under `root` satisfies `P`. -/
def AllNodes (P : MCTSNode → Prop) (root : MCTSNode) : Prop :=
  ∀ q x, get_at root q = some x → P x

/-- Every node of `t` is still present at the same position in `t2`, with `wins` and
`visits` not smaller than before. -/
def NodeLe (t t2 : MCTSNode) : Prop :=
  ∀ q x, get_at t q = some x → ∃ y, get_at t2 q = some y ∧ x.wins ≤ y.wins ∧ x.visits ≤ y.visits

/-- The sum of the visit counts of the direct children. -/
def child_visits (nd : MCTSNode) : Int := (nd.children.map MCTSNode.visits).sum

/-- The statistics of one node are consistent: `0 ≤ wins ≤ visits`, and `wins` is a
whole number of halves. -/
def StatsOk (x : MCTSNode) : Prop :=
  0 ≤ x.wins ∧ x.wins ≤ (x.visits : ℚ) ∧ ∃ k : Nat, x.wins = (k : ℚ) / 2

/-- The tree `root1` and the pointer `node` are a possible outcome of `tree_policy` on
`root`: either the tree is unchanged and `node` points to one of its nodes, or one
node `x` of the tree has received a fresh last child for one of its untried actions
and `node` points to that child. -/
def Grown (root root1 : MCTSNode) (node : Ptr) : Prop :=
  ∃ x ptr, deref root ptr = some x ∧
    ((root1 = root ∧ node = ptr) ∨
      ∃ act, act ∈ untried_actions x ∧
        root1 = update root ptr
          (fun n => n.push_child (MCTSNode.new (x.state.after act) act)) ∧
        node = x.children.length :: ptr)

/-! ## Sample inputs -/

/-- One Newton step from `1` towards the square root: a rational stand-in for `sqrt`. -/
def sample_sqrt (x : ℚ) : ℚ := (x + 1) / 2

/-- The first term of the series of the logarithm: a rational stand-in for `log`. -/
def sample_log (x : ℚ) : ℚ := 2 * (x - 1) / (x + 1)

/-- An engine with the iteration count `2000` and the constant `7 / 5` of
`MCTS mcts(2000, 1.4)` in `main`, over the two stand-ins for `sqrt` and `log`. -/
def sample_engine : MCTS := ⟨2000, 7 / 5, sample_sqrt, sample_log⟩

/-- An engine with the iteration count `0`. -/
def idle_engine : MCTS := ⟨0, 7 / 5, sample_sqrt, sample_log⟩

/-- A generator whose raw draws are `0, 1, 2, ...`. -/
def sample_rng : Rng := ⟨fun i => i, 0⟩

/-- Another game behind the `GameState` interface, a class derived from `GameState`
directly: one pile of stones, a move (whatever the action) takes one stone if there is
one, the player who takes the last stone wins. -/
def pile_game (stones : Nat) (player : Int) : OtherGame where
  State := Nat × Int
  self := (stones, player)
  current_player := fun st => Except.ok st.2
  legal_actions := fun st => if st.1 = 0 then [] else [0]
  next_state := fun st _ => Except.ok (st.1 - 1, -st.2)
  is_terminal := fun st => decide (st.1 = 0)
  winner := fun st => if st.1 = 0 then -st.2 else 0
  clone := fun st => st
  as_tictactoe := fun _ => none

/-- A class derived from `TicTacToeState` that overrides `next_state` with a checked
version: an action outside the board leaves the position as it is. -/
def checked_game (t : TicTacToeState) : OtherGame where
  State := TicTacToeState
  self := t
  current_player := fun st => Except.ok st.current_player
  legal_actions := fun st => st.legal_actions
  next_state := fun st a => if 0 ≤ a ∧ a < 9 then st.next_state a else Except.ok st
  is_terminal := fun st => st.is_terminal
  winner := fun st => st.winner
  clone := fun st => st.clone
  as_tictactoe := fun st => some st

/-- A state that the public constructor `TicTacToeState(b, p)` accepts: the empty
board with the player `0` to move. -/
def stuck_state : TicTacToeState := ⟨fun _ => 0, 0⟩

/-- A finished game: player one has the top row, player two two cells of the middle
row. -/
def won_state : TicTacToeState :=
  ⟨fun i => if i.val < 3 then 1 else if i.val < 5 then -1 else 0, -1⟩

/-! ## Plays -/

/-- The state reached from `s` by the moves of the list, each one a legal action of
a state that is not terminal; `none` if some move is not of that kind. -/
def play_moves : TicTacToeState → List Int → Option TicTacToeState
  | s, [] => some s
  | s, a :: rest =>
    if s.is_terminal = false ∧ a ∈ s.legal_actions then
      match s.next_state a with
      | Except.error _ => none
      | Except.ok t => play_moves t rest
    else none

/-- A full board without a completed line. -/
def drawn_state : TicTacToeState :=
  ⟨fun i => match i.val with
    | 0 => 1 | 1 => -1 | 2 => 1
    | 3 => 1 | 4 => -1 | 5 => -1
    | 6 => -1 | 7 => 1 | _ => 1, 1⟩

/-! ## Two runs -/

/-- Two generators that are going to produce the same sequence of draws. -/
def same_stream (a b : Rng) : Prop := ∀ i, a.draws (a.pos + i) = b.draws (b.pos + i)

/-- Two runs of a step ended alike: with the same fault, or with the same value and
with generators that still agree. -/
def SameRun {α : Type} (x y : Except Fault (α × Rng)) : Prop :=
  (∃ e, x = Except.error e ∧ y = Except.error e) ∨
  (∃ v a b, x = Except.ok (v, a) ∧ y = Except.ok (v, b) ∧ same_stream a b)

/-- The same for a step that yields a tree and a node pointer. -/
def SameRun3 (x y : Except Fault (MCTSNode × Ptr × Rng)) : Prop :=
  (∃ e, x = Except.error e ∧ y = Except.error e) ∨
  (∃ r n a b, x = Except.ok (r, n, a) ∧ y = Except.ok (r, n, b) ∧ same_stream a b)

/-- The generator of `sample_rng` after three draws of another sequence that agrees
with it from there on. -/
def shifted_rng : Rng := ⟨fun i => i - 3, 3⟩

/-- A root with one visit and one child, the centre move, visited once with a draw as
the outcome. -/
def sample_tree : MCTSNode :=
  MCTSNode.mk (-1) 1 (1 / 2) 1 TicTacToeState.init
    [MCTSNode.mk 4 (-1) (1 / 2) 1 (TicTacToeState.init.after 4) []]

/-! ## Updates along a path -/

/-- The tree in which `f` has been applied to every node met on the way from `nd` along
the child indices (outermost first) and `h` to the node at the end of the way. -/
def along (f h : MCTSNode → MCTSNode) : MCTSNode → List Nat → MCTSNode
  | nd, [] => h nd
  | nd, i :: p => f (nd.with_children (modify_nth (fun c => along f h c p) nd.children i))

/-! ## The shape of a reachable tree -/

/-- The children of a node carry pairwise distinct actions, each one a legal action of
the state of the node, and the state of each child is the state of the node with the
action of the child applied. -/
def ChildrenOk (x : MCTSNode) : Prop :=
  (x.children.map MCTSNode.action_from_parent).Nodup ∧
  ∀ c ∈ x.children, c.action_from_parent ∈ x.state.legal_actions ∧
    c.state = x.state.after c.action_from_parent

/-- Visit conservation at one node, with `k` visits of its own: a node with a terminal
state has no children, a node with a non-terminal state has `k` visits more than its
children together. -/
def Conserved (k : Int) (x : MCTSNode) : Prop :=
  (x.state.is_terminal = true → x.children = []) ∧
  (x.state.is_terminal = false → x.visits = k + child_visits x)

/-- A subtree below the root: every node in it is conserved with one visit of its own
and has been visited. -/
def SubOk (c : MCTSNode) : Prop := AllNodes (fun y => Conserved 1 y ∧ 1 ≤ y.visits) c

/-- A tree whose top node is conserved with `k` visits of its own, over subtrees that
are in order. -/
def TreeOk (k : Int) (nd : MCTSNode) : Prop :=
  Conserved k nd ∧ ∀ c ∈ nd.children, SubOk c

/-- What `tree_policy` and `backup` together do to a node that receives the new child
`child`: the child is appended with its first visit, and the node is updated. -/
def grow_end (r : ℚ) (child : MCTSNode) (y : MCTSNode) : MCTSNode :=
  backup_step r (y.with_children (y.children ++ [backup_step r child]))

/-- The outcome of `tree_policy` in full: the tree is unchanged and the node returned
has a terminal state or nothing left to try, or a node with a non-terminal state has
received a fresh last child for one of its untried actions and that child is
returned. -/
def Selected (root root1 : MCTSNode) (node : Ptr) : Prop :=
  ∃ x ptr, deref root ptr = some x ∧
    ((root1 = root ∧ node = ptr ∧
        (x.state.is_terminal = true ∨
          (x.state.is_terminal = false ∧ x.is_fully_expanded = false ∧
            untried_actions x = []))) ∨
      (x.state.is_terminal = false ∧ ∃ act, act ∈ untried_actions x ∧
        root1 = update root ptr
          (fun n => n.push_child (MCTSNode.new (x.state.after act) act)) ∧
        node = x.children.length :: ptr))

/-- One completed round with reward `r`, seen from the root: every node on the way to
some node `x` has been updated, and `x` itself has been updated (its state is terminal,
or nothing was left to try) or has been updated and given a new child with one visit. -/
def Round (r : ℚ) (root root2 : MCTSNode) : Prop :=
  ∃ p x, get_at root p = some x ∧
    ((x.state.is_terminal = true ∧
        root2 = along (backup_step r) (backup_step r) root p) ∨
      (x.state.is_terminal = false ∧ x.is_fully_expanded = false ∧ untried_actions x = [] ∧
        root2 = along (backup_step r) (backup_step r) root p) ∨
      (x.state.is_terminal = false ∧ ∃ act, act ∈ untried_actions x ∧
        root2 = along (backup_step r)
          (grow_end r (MCTSNode.new (x.state.after act) act)) root p))

/-! ## Properties of the reference game -/

namespace TicTacToeState

theorem mem_legal_actions (s : TicTacToeState) (a : Int) :
    a ∈ s.legal_actions ↔ ∃ i : Fin 9, (i.val : Int) = a ∧ s.board i = 0 := by
  unfold legal_actions
  simp only [List.mem_map, List.mem_filter, List.mem_finRange, true_and, decide_eq_true_eq]
  constructor
  · rintro ⟨i, h0, rfl⟩
    exact ⟨i, rfl, h0⟩
  · rintro ⟨i, rfl, h0⟩
    exact ⟨i, h0, rfl⟩

theorem legal_action_range (s : TicTacToeState) (a : Int) (h : a ∈ s.legal_actions) :
    0 ≤ a ∧ a < 9 := by
  obtain ⟨i, rfl, _⟩ := (mem_legal_actions s a).mp h
  have := i.isLt
  omega

theorem next_state_of_range (s : TicTacToeState) (a : Int) (h : 0 ≤ a ∧ a < 9) :
    s.next_state a = Except.ok (s.after a) := by
  unfold next_state
  rw [if_pos h]

theorem next_state_of_mem (s : TicTacToeState) (a : Int) (h : a ∈ s.legal_actions) :
    s.next_state a = Except.ok (s.after a) :=
  next_state_of_range s a (legal_action_range s a h)

theorem next_state_out_of_range (s : TicTacToeState) (a : Int) (h : ¬ (0 ≤ a ∧ a < 9)) :
    s.next_state a = Except.error Fault.bad_index := by
  unfold next_state
  rw [if_neg h]

theorem next_state_eq_ok (s t : TicTacToeState) (a : Int) (h : s.next_state a = Except.ok t) :
    (0 ≤ a ∧ a < 9) ∧ t = s.after a := by
  unfold next_state at h
  by_cases hr : 0 ≤ a ∧ a < 9
  · rw [if_pos hr] at h
    exact ⟨hr, (Except.ok.inj h).symm⟩
  · rw [if_neg hr] at h
    cases h

theorem full_loop_eq_true (b : Fin 9 → Int) (l : List (Fin 9)) :
    full_loop b l = true ↔ ∀ i ∈ l, b i ≠ 0 := by
  induction l with
  | nil => simp [full_loop]
  | cons i rest ih =>
    by_cases h : b i = 0
    · simp [full_loop, h]
    · simp [full_loop, h, ih]

theorem legal_actions_eq_nil (s : TicTacToeState) :
    s.legal_actions = [] ↔ ∀ i : Fin 9, s.board i ≠ 0 := by
  unfold legal_actions
  simp [List.filter_eq_nil_iff]

theorem is_terminal_iff (s : TicTacToeState) :
    s.is_terminal = true ↔ (s.winner ≠ 0 ∨ s.legal_actions = []) := by
  unfold is_terminal
  by_cases hw : s.winner = 0
  · simp [hw, full_loop_eq_true, legal_actions_eq_nil]
  · simp [hw]

theorem legal_actions_ne_nil (s : TicTacToeState) (h : s.is_terminal = false) :
    s.legal_actions ≠ [] := by
  intro hnil
  have := (is_terminal_iff s).mpr (Or.inr hnil)
  simp [h] at this

theorem legal_actions_after (s : TicTacToeState) (a : Int) (hp : s.player ≠ 0) :
    (s.after a).legal_actions = s.legal_actions.filter (fun x => decide (x ≠ a)) := by
  unfold legal_actions after store
  rw [List.filter_map, List.filter_filter]
  congr 1
  apply List.filter_congr
  intro i _
  by_cases h : (i.val : Int) = a
  · simp [h, hp]
  · simp [h]

end TicTacToeState

/-! ## Nodes, pointers and in-place updates -/

namespace MCTSNode

@[simp] theorem with_children_children (n : MCTSNode) (cs : List MCTSNode) :
    (n.with_children cs).children = cs := by cases n; rfl

@[simp] theorem with_children_state (n : MCTSNode) (cs : List MCTSNode) :
    (n.with_children cs).state = n.state := by cases n; rfl

@[simp] theorem with_children_visits (n : MCTSNode) (cs : List MCTSNode) :
    (n.with_children cs).visits = n.visits := by cases n; rfl

@[simp] theorem with_children_wins (n : MCTSNode) (cs : List MCTSNode) :
    (n.with_children cs).wins = n.wins := by cases n; rfl

@[simp] theorem with_children_action (n : MCTSNode) (cs : List MCTSNode) :
    (n.with_children cs).action_from_parent = n.action_from_parent := by cases n; rfl

@[simp] theorem push_child_children (n c : MCTSNode) :
    (n.push_child c).children = n.children ++ [c] := by simp [push_child]

@[simp] theorem push_child_state (n c : MCTSNode) : (n.push_child c).state = n.state := by
  simp [push_child]

@[simp] theorem push_child_visits (n c : MCTSNode) : (n.push_child c).visits = n.visits := by
  simp [push_child]

@[simp] theorem push_child_wins (n c : MCTSNode) : (n.push_child c).wins = n.wins := by
  simp [push_child]

@[simp] theorem push_child_action (n c : MCTSNode) :
    (n.push_child c).action_from_parent = n.action_from_parent := by simp [push_child]

@[simp] theorem new_children (s : TicTacToeState) (a : Int) : (new s a).children = [] := rfl

@[simp] theorem new_state (s : TicTacToeState) (a : Int) : (new s a).state = s := rfl

@[simp] theorem new_visits (s : TicTacToeState) (a : Int) : (new s a).visits = 0 := rfl

@[simp] theorem new_wins (s : TicTacToeState) (a : Int) : (new s a).wins = 0 := rfl

@[simp] theorem new_action (s : TicTacToeState) (a : Int) :
    (new s a).action_from_parent = a := rfl

end MCTSNode

@[simp] theorem backup_step_children (r : ℚ) (n : MCTSNode) :
    (backup_step r n).children = n.children := by cases n; rfl

@[simp] theorem backup_step_state (r : ℚ) (n : MCTSNode) :
    (backup_step r n).state = n.state := by cases n; rfl

@[simp] theorem backup_step_action (r : ℚ) (n : MCTSNode) :
    (backup_step r n).action_from_parent = n.action_from_parent := by cases n; rfl

@[simp] theorem backup_step_visits (r : ℚ) (n : MCTSNode) :
    (backup_step r n).visits = n.visits + 1 := by cases n; rfl

theorem backup_step_wins (r : ℚ) (n : MCTSNode) : (backup_step r n).wins = n.wins + r := by
  cases n
  simp only [backup_step, MCTSNode.wins]
  split
  · next h => rw [h]
  · rfl

theorem modify_nth_length (f : MCTSNode → MCTSNode) (l : List MCTSNode) (i : Nat) :
    (modify_nth f l i).length = l.length := by
  induction l generalizing i with
  | nil => rfl
  | cons c cs ih => cases i <;> simp [modify_nth, ih]

theorem modify_nth_get? (f : MCTSNode → MCTSNode) (l : List MCTSNode) (i j : Nat) :
    (modify_nth f l i)[j]? = if j = i then (l[j]?).map f else l[j]? := by
  induction l generalizing i j with
  | nil => simp [modify_nth]
  | cons c cs ih =>
    cases i with
    | zero => cases j <;> simp [modify_nth]
    | succ i => cases j <;> simp [modify_nth, ih]

theorem modify_nth_map (f : MCTSNode → MCTSNode) {β : Type} (g : MCTSNode → β)
    (hf : ∀ c, g (f c) = g c) (l : List MCTSNode) (i : Nat) :
    (modify_nth f l i).map g = l.map g := by
  induction l generalizing i with
  | nil => rfl
  | cons c cs ih => cases i <;> simp [modify_nth, ih, hf]

theorem get_at_append (nd : MCTSNode) (p q : List Nat) :
    get_at nd (p ++ q) = (get_at nd p).bind (fun x => get_at x q) := by
  induction p generalizing nd with
  | nil => simp [get_at]
  | cons i p ih =>
    simp only [List.cons_append, get_at]
    cases nd.children[i]? with
    | none => rfl
    | some c => exact ih c

theorem get_at_modify_at (f : MCTSNode → MCTSNode) (nd : MCTSNode) (p : List Nat) :
    get_at (modify_at f nd p) p = (get_at nd p).map f := by
  induction p generalizing nd with
  | nil => simp [get_at, modify_at]
  | cons i p ih =>
    simp only [get_at, modify_at, MCTSNode.with_children_children, modify_nth_get?, if_true]
    cases nd.children[i]? with
    | none => rfl
    | some c => exact ih c

/-- A field that `f` leaves alone is left alone by an update with `f` anywhere in
the tree. -/
theorem modify_at_field {β : Type} (g : MCTSNode → β) (f : MCTSNode → MCTSNode)
    (hf : ∀ n, g (f n) = g n) (hw : ∀ n cs, g (n.with_children cs) = g n)
    (nd : MCTSNode) (p : List Nat) : g (modify_at f nd p) = g nd := by
  cases p with
  | nil => exact hf nd
  | cons i p => exact hw _ _

theorem modify_at_state (f : MCTSNode → MCTSNode) (hf : ∀ n, (f n).state = n.state)
    (nd : MCTSNode) (p : List Nat) : (modify_at f nd p).state = nd.state :=
  modify_at_field MCTSNode.state f hf (fun _ _ => MCTSNode.with_children_state _ _) nd p

theorem modify_at_action (f : MCTSNode → MCTSNode)
    (hf : ∀ n, (f n).action_from_parent = n.action_from_parent)
    (nd : MCTSNode) (p : List Nat) :
    (modify_at f nd p).action_from_parent = nd.action_from_parent :=
  modify_at_field MCTSNode.action_from_parent f hf
    (fun _ _ => MCTSNode.with_children_action _ _) nd p

theorem modify_at_visits_cons (f : MCTSNode → MCTSNode) (nd : MCTSNode) (i : Nat)
    (p : List Nat) : (modify_at f nd (i :: p)).visits = nd.visits := by
  simp [modify_at]

theorem modify_at_visits_ne_nil (f : MCTSNode → MCTSNode) (nd : MCTSNode) (p : List Nat)
    (hp : p ≠ []) : (modify_at f nd p).visits = nd.visits := by
  cases p with
  | nil => exact absurd rfl hp
  | cons i p => exact modify_at_visits_cons f nd i p

/-! ## Invariants under in-place updates -/

theorem AllNodes.child {P : MCTSNode → Prop} {nd c : MCTSNode} {i : Nat}
    (h : AllNodes P nd) (hc : nd.children[i]? = some c) : AllNodes P c := by
  intro q x hq
  apply h (i :: q) x
  simp [get_at, hc, hq]

theorem AllNodes.self {P : MCTSNode → Prop} {nd : MCTSNode} (h : AllNodes P nd) : P nd :=
  h [] nd rfl

theorem AllNodes.deref {P : MCTSNode → Prop} {root x : MCTSNode} {node : Ptr}
    (h : AllNodes P root) (hx : deref root node = some x) : P x :=
  h _ x hx

theorem allNodes_modify_at (P : MCTSNode → Prop) (f : MCTSNode → MCTSNode)
    (hw : ∀ n cs, P n → P (n.with_children cs))
    (hf : ∀ x, AllNodes P x → AllNodes P (f x))
    (nd : MCTSNode) (p : List Nat) (h : AllNodes P nd) : AllNodes P (modify_at f nd p) := by
  induction p generalizing nd with
  | nil => exact hf nd h
  | cons i p ih =>
    intro q x hq
    cases q with
    | nil =>
      simp only [get_at, modify_at, Option.some.injEq] at hq
      subst hq
      exact hw _ _ h.self
    | cons j q =>
      simp only [get_at, modify_at, MCTSNode.with_children_children, modify_nth_get?] at hq
      by_cases hji : j = i
      · subst hji
        cases hc : nd.children[j]? with
        | none => simp [hc] at hq
        | some c =>
          simp only [hc, if_true, Option.map_some'] at hq
          exact ih c (h.child hc) q x hq
      · simp only [hji, if_false] at hq
        exact h (j :: q) x (by simpa [get_at] using hq)

theorem nodeLe_refl (t : MCTSNode) : NodeLe t t :=
  fun _ x hx => ⟨x, hx, le_refl _, le_refl _⟩

theorem nodeLe_trans {a b c : MCTSNode} (hab : NodeLe a b) (hbc : NodeLe b c) : NodeLe a c := by
  intro q x hx
  obtain ⟨y, hy, h1, h2⟩ := hab q x hx
  obtain ⟨z, hz, h3, h4⟩ := hbc q y hy
  exact ⟨z, hz, le_trans h1 h3, le_trans h2 h4⟩

theorem nodeLe_modify_at (f : MCTSNode → MCTSNode) (hf : ∀ x, NodeLe x (f x))
    (nd : MCTSNode) (p : List Nat) : NodeLe nd (modify_at f nd p) := by
  induction p generalizing nd with
  | nil => exact hf nd
  | cons i p ih =>
    intro q x hq
    cases q with
    | nil =>
      simp only [get_at, Option.some.injEq] at hq
      subst hq
      exact ⟨_, rfl, by simp [modify_at], by simp [modify_at]⟩
    | cons j q =>
      simp only [get_at] at hq
      cases hc : nd.children[j]? with
      | none => simp [hc] at hq
      | some c =>
        simp only [hc] at hq
        by_cases hji : j = i
        · subst hji
          obtain ⟨y, hy, h1, h2⟩ := ih c q x hq
          refine ⟨y, ?_, h1, h2⟩
          simp [get_at, modify_at, modify_nth_get?, hc, hy]
        · refine ⟨x, ?_, le_refl _, le_refl _⟩
          simp [get_at, modify_at, modify_nth_get?, hc, hji, hq]

theorem nodeLe_push_child (x c : MCTSNode) : NodeLe x (x.push_child c) := by
  intro q y hq
  cases q with
  | nil =>
    simp only [get_at, Option.some.injEq] at hq
    subst hq
    exact ⟨_, rfl, by simp, by simp⟩
  | cons j q =>
    simp only [get_at] at hq
    cases hc : x.children[j]? with
    | none => simp [hc] at hq
    | some d =>
      simp only [hc] at hq
      refine ⟨y, ?_, le_refl _, le_refl _⟩
      have hj : j < x.children.length := (List.getElem?_eq_some.mp hc).1
      simp [get_at, List.getElem?_append_left hj, hc, hq]

theorem nodeLe_backup_step (r : ℚ) (hr : 0 ≤ r) (x : MCTSNode) : NodeLe x (backup_step r x) := by
  intro q y hq
  cases q with
  | nil =>
    simp only [get_at, Option.some.injEq] at hq
    subst hq
    refine ⟨_, rfl, ?_, by simp⟩
    rw [backup_step_wins]
    linarith
  | cons j q =>
    refine ⟨y, ?_, le_refl _, le_refl _⟩
    simpa [get_at] using hq

theorem allNodes_push_child (P : MCTSNode → Prop)
    (hw : ∀ n cs, P n → P (n.with_children cs)) (c : MCTSNode) (hc : AllNodes P c)
    (x : MCTSNode) (hx : AllNodes P x) : AllNodes P (x.push_child c) := by
  intro q y hq
  cases q with
  | nil =>
    simp only [get_at, Option.some.injEq] at hq
    subst hq
    exact hw _ _ hx.self
  | cons j q =>
    simp only [get_at, MCTSNode.push_child_children] at hq
    by_cases hj : j < x.children.length
    · rw [List.getElem?_append_left hj] at hq
      exact hx (j :: q) y (by simpa [get_at] using hq)
    · rw [List.getElem?_append_right (Nat.le_of_not_lt hj)] at hq
      cases hk : j - x.children.length with
      | zero =>
        simp only [hk, List.getElem?_cons_zero] at hq
        exact hc q y hq
      | succ k => simp [hk] at hq

theorem allNodes_backup_step (P : MCTSNode → Prop) (r : ℚ)
    (hs : ∀ n, P n → P (backup_step r n)) (x : MCTSNode) (hx : AllNodes P x) :
    AllNodes P (backup_step r x) := by
  intro q y hq
  cases q with
  | nil =>
    simp only [get_at, Option.some.injEq] at hq
    subst hq
    exact hs _ hx.self
  | cons j q => exact hx (j :: q) y (by simpa [get_at] using hq)

/-! ## Visit counts under updates and under `backup` -/

theorem sum_visits_modify_nth_le (g : MCTSNode → MCTSNode)
    (hg : ∀ c, (g c).visits = c.visits + 1) (l : List MCTSNode) (i : Nat) :
    ((modify_nth g l i).map MCTSNode.visits).sum ≤ (l.map MCTSNode.visits).sum + 1 := by
  induction l generalizing i with
  | nil => simp [modify_nth]
  | cons c cs ih =>
    cases i with
    | zero => simp [modify_nth, hg]; omega
    | succ i =>
      have := ih i
      simp only [modify_nth, List.map_cons, List.sum_cons]
      omega

theorem child_visits_modify_at_keep (f : MCTSNode → MCTSNode)
    (hf : ∀ n, (f n).visits = n.visits) (hc : ∀ n, child_visits (f n) = child_visits n)
    (nd : MCTSNode) (p : List Nat) : child_visits (modify_at f nd p) = child_visits nd := by
  cases p with
  | nil => exact hc nd
  | cons i p =>
    simp only [child_visits, modify_at, MCTSNode.with_children_children]
    rw [modify_nth_map]
    intro c
    exact modify_at_field MCTSNode.visits f hf (fun _ _ => MCTSNode.with_children_visits _ _) c p

theorem child_visits_backup_step (r : ℚ) (n : MCTSNode) :
    child_visits (backup_step r n) = child_visits n := by
  simp [child_visits]

theorem child_visits_update_step (r : ℚ) (root : MCTSNode) (i : Nat) (up : Ptr) :
    child_visits (update root (i :: up) (backup_step r)) ≤
      child_visits root + (if up = [] then 1 else 0) := by
  unfold update
  cases up with
  | nil =>
    simp only [List.reverse_cons, List.reverse_nil, List.nil_append, modify_at, child_visits,
      MCTSNode.with_children_children, if_true]
    exact sum_visits_modify_nth_le _ (fun c => backup_step_visits r c) _ _
  | cons j up =>
    have hne : (i :: j :: up).reverse = (j :: up).reverse ++ [i] := by simp
    rw [hne]
    cases hrev : (j :: up).reverse with
    | nil => simp at hrev
    | cons k rest =>
      simp only [List.cons_append, modify_at, child_visits, MCTSNode.with_children_children]
      rw [modify_nth_map]
      · simp
      · intro c
        exact modify_at_visits_ne_nil _ c _ (by simp)

theorem backup_child_visits (r : ℚ) (root : MCTSNode) (node : Ptr) :
    child_visits (backup r root node) ≤ child_visits root + (if node = [] then 0 else 1) := by
  induction node generalizing root with
  | nil => simp [backup, update, modify_at, child_visits_backup_step]
  | cons i up ih =>
    have h1 := child_visits_update_step r root i up
    have h2 := ih (update root (i :: up) (backup_step r))
    simp only [backup]
    by_cases hup : up = []
    · simp only [hup, if_true] at h1 h2 ⊢
      simp only [reduceCtorEq, if_false]
      omega
    · simp only [hup, if_false] at h1 h2 ⊢
      simp only [reduceCtorEq, if_false]
      omega

theorem update_visits_cons (f : MCTSNode → MCTSNode) (root : MCTSNode) (i : Nat) (up : Ptr) :
    (update root (i :: up) f).visits = root.visits := by
  unfold update
  cases hrev : (i :: up).reverse with
  | nil => simp at hrev
  | cons k rest => simp [modify_at]

theorem backup_visits (r : ℚ) (root : MCTSNode) (node : Ptr) :
    (backup r root node).visits = root.visits + 1 := by
  induction node generalizing root with
  | nil => simp [backup, update, modify_at]
  | cons i up ih =>
    simp only [backup]
    rw [ih, update_visits_cons]

theorem backup_field {β : Type} (g : MCTSNode → β) (r : ℚ)
    (hf : ∀ n, g (backup_step r n) = g n) (hw : ∀ n cs, g (n.with_children cs) = g n)
    (root : MCTSNode) (node : Ptr) : g (backup r root node) = g root := by
  induction node generalizing root with
  | nil => simpa [backup, update, modify_at] using hf root
  | cons i up ih =>
    simp only [backup]
    rw [ih]
    exact modify_at_field g _ hf hw root _

theorem update_child_actions (f : MCTSNode → MCTSNode)
    (hf : ∀ n, (f n).action_from_parent = n.action_from_parent)
    (hc : ∀ n, (f n).children.map MCTSNode.action_from_parent =
      n.children.map MCTSNode.action_from_parent)
    (nd : MCTSNode) (p : List Nat) :
    (modify_at f nd p).children.map MCTSNode.action_from_parent =
      nd.children.map MCTSNode.action_from_parent := by
  cases p with
  | nil => exact hc nd
  | cons i p =>
    simp only [modify_at, MCTSNode.with_children_children]
    rw [modify_nth_map]
    intro c
    exact modify_at_action f hf c p

theorem backup_child_actions (r : ℚ) (root : MCTSNode) (node : Ptr) :
    (backup r root node).children.map MCTSNode.action_from_parent =
      root.children.map MCTSNode.action_from_parent := by
  induction node generalizing root with
  | nil => simp [backup, update, modify_at]
  | cons i up ih =>
    simp only [backup]
    rw [ih]
    exact update_child_actions _ (backup_step_action r) (by simp) root _

theorem backup_state (r : ℚ) (root : MCTSNode) (node : Ptr) :
    (backup r root node).state = root.state :=
  backup_field MCTSNode.state r (backup_step_state r)
    (fun _ _ => MCTSNode.with_children_state _ _) root node

theorem backup_allNodes (P : MCTSNode → Prop) (r : ℚ)
    (hw : ∀ n cs, P n → P (n.with_children cs)) (hs : ∀ n, P n → P (backup_step r n))
    (root : MCTSNode) (node : Ptr) (h : AllNodes P root) : AllNodes P (backup r root node) := by
  induction node generalizing root with
  | nil =>
    simp only [backup, update, List.reverse_nil, modify_at]
    exact allNodes_backup_step P r hs root h
  | cons i up ih =>
    simp only [backup]
    apply ih
    exact allNodes_modify_at P _ hw (allNodes_backup_step P r hs) root _ h

theorem backup_nodeLe (r : ℚ) (hr : 0 ≤ r) (root : MCTSNode) (node : Ptr) :
    NodeLe root (backup r root node) := by
  induction node generalizing root with
  | nil =>
    simp only [backup, update, List.reverse_nil, modify_at]
    exact nodeLe_backup_step r hr root
  | cons i up ih =>
    simp only [backup]
    exact nodeLe_trans (nodeLe_modify_at _ (nodeLe_backup_step r hr) root _) (ih _)

/-! ## Selection and expansion -/

theorem best_uct_loop_of_best (m : MCTS) (N : Int) (cs : List MCTSNode) (i : Nat)
    (bs : Option ℚ) (k : Nat) : ∃ j, best_uct_loop m N cs i bs (some k) = some j := by
  induction cs generalizing i bs k with
  | nil => exact ⟨k, rfl⟩
  | cons c cs ih =>
    simp only [best_uct_loop]
    split
    · exact ⟨i, rfl⟩
    · split
      · exact ih _ _ _
      · exact ih _ _ _

theorem best_uct_loop_of_cons (m : MCTS) (N : Int) (c : MCTSNode) (cs : List MCTSNode) (i : Nat)
    (best : Option Nat) : ∃ j, best_uct_loop m N (c :: cs) i none best = some j := by
  simp only [best_uct_loop, exceeds, if_true]
  split
  · exact ⟨i, rfl⟩
  · exact best_uct_loop_of_best m N cs _ _ _

theorem best_uct_loop_bound (m : MCTS) (N : Int) (cs : List MCTSNode) (i : Nat)
    (bs : Option ℚ) (best : Option Nat) (j : Nat)
    (h : best_uct_loop m N cs i bs best = some j) :
    best = some j ∨ (i ≤ j ∧ j < i + cs.length) := by
  induction cs generalizing i bs best with
  | nil => exact Or.inl h
  | cons c cs ih =>
    simp only [best_uct_loop] at h
    split at h
    · simp only [Option.some.injEq] at h
      subst h
      exact Or.inr ⟨le_refl _, by simp⟩
    · split at h
      · rcases ih _ _ _ h with h1 | ⟨h1, h2⟩
        · simp only [Option.some.injEq] at h1
          subst h1
          exact Or.inr ⟨le_refl _, by simp⟩
        · exact Or.inr ⟨by omega, by simp only [List.length_cons]; omega⟩
      · rcases ih _ _ _ h with h1 | ⟨h1, h2⟩
        · exact Or.inl h1
        · exact Or.inr ⟨by omega, by simp only [List.length_cons]; omega⟩

/-- On a node with at least one child, `best_uct_child` returns a child. -/
theorem best_uct_child_some (m : MCTS) (nd : MCTSNode) (h : nd.children ≠ []) :
    ∃ j c, best_uct_child m nd = some j ∧ nd.children[j]? = some c := by
  unfold best_uct_child
  cases hcs : nd.children with
  | nil => exact absurd hcs h
  | cons c cs =>
    obtain ⟨j, hj⟩ := best_uct_loop_of_cons m nd.visits c cs 0 none
    rcases best_uct_loop_bound _ _ _ _ _ _ _ hj with h1 | ⟨_, h2⟩
    · simp at h1
    · have hlt : j < (c :: cs).length := by simpa using h2
      exact ⟨j, (c :: cs)[j], hj, List.getElem?_eq_getElem hlt⟩

theorem untried_actions_subset (nd : MCTSNode) (a : Int) (h : a ∈ untried_actions nd) :
    a ∈ nd.state.legal_actions := by
  unfold untried_actions at h
  exact (List.mem_filter.mp h).1

theorem untried_actions_of_leaf (nd : MCTSNode) (h : nd.children = []) :
    untried_actions nd = nd.state.legal_actions := by
  unfold untried_actions
  simp [h]

theorem uniform_int_lt (rng : Rng) (size : Nat) (h : 0 < size) : (uniform_int rng size).1 < size :=
  Nat.mod_lt _ h

/-- The two outcomes of `expand`: nothing untried and nothing done, or a new last child
for an untried action. -/
theorem expand_cases (root nd : MCTSNode) (node : Ptr) (rng : Rng) :
    (untried_actions nd = [] ∧ expand root nd node rng = Except.ok (root, node, rng)) ∨
    (∃ act rng1, act ∈ untried_actions nd ∧
      expand root nd node rng = Except.ok
        (update root node (fun n => n.push_child (MCTSNode.new (nd.state.after act) act)),
          nd.children.length :: node, rng1)) := by
  unfold expand
  cases hu : untried_actions nd with
  | nil => exact Or.inl ⟨rfl, by simp⟩
  | cons a l =>
    right
    have hlt : (uniform_int rng (a :: l).length).1 < (a :: l).length :=
      uniform_int_lt rng _ (by simp)
    refine ⟨(a :: l)[(uniform_int rng (a :: l).length).1], (uniform_int rng (a :: l).length).2,
      List.getElem_mem _, ?_⟩
    simp only [List.isEmpty_cons, Bool.false_eq_true, if_false]
    rw [List.getElem?_eq_getElem hlt]
    have hmem : (a :: l)[(uniform_int rng (a :: l).length).1] ∈ nd.state.legal_actions :=
      untried_actions_subset nd _ (by rw [hu]; exact List.getElem_mem _)
    simp only [TicTacToeState.next_state_of_mem _ _ hmem]

theorem deref_cons (root nd c : MCTSNode) (node : Ptr) (i : Nat)
    (h : deref root node = some nd) (hc : nd.children[i]? = some c) :
    deref root (i :: node) = some c := by
  unfold deref at h ⊢
  rw [List.reverse_cons, get_at_append, h]
  simp [get_at, hc]

theorem sizeOf_child_lt (nd c : MCTSNode) (i : Nat) (hc : nd.children[i]? = some c) :
    sizeOf c < sizeOf nd := by
  have hlt := List.sizeOf_lt_of_mem (List.getElem?_mem hc)
  cases nd with
  | mk a p w v s cs =>
    simp only [MCTSNode.children] at hlt
    simp only [MCTSNode.mk.sizeOf_spec]
    omega

theorem is_fully_expanded_children_ne_nil (nd : MCTSNode) (ht : nd.state.is_terminal = false)
    (hf : nd.is_fully_expanded = true) : nd.children ≠ [] := by
  intro hnil
  have hne := TicTacToeState.legal_actions_ne_nil nd.state ht
  unfold MCTSNode.is_fully_expanded at hf
  simp only [hnil, List.length_nil, decide_eq_true_eq] at hf
  have : nd.state.legal_actions.length = 0 := by exact_mod_cast hf.symm
  exact hne (List.length_eq_zero.mp this)

theorem tree_policy_grown_aux (m : MCTS) (root : MCTSNode) (n : Nat) :
    ∀ (nd : MCTSNode) (node : Ptr) (rng : Rng), sizeOf nd ≤ n → deref root node = some nd →
      ∃ root1 node1 rng1, tree_policy m root nd node rng = Except.ok (root1, node1, rng1) ∧
        Grown root root1 node1 := by
  induction n with
  | zero =>
    intro nd node rng hsz _
    cases nd with
    | mk a p w v s cs => simp only [MCTSNode.mk.sizeOf_spec] at hsz; omega
  | succ n ih =>
    intro nd node rng hsz hd
    rw [tree_policy]
    by_cases ht : nd.state.is_terminal = true
    · simp only [ht, if_true]
      exact ⟨root, node, rng, rfl, nd, node, hd, Or.inl ⟨rfl, rfl⟩⟩
    · simp only [ht, Bool.false_eq_true, if_false]
      by_cases hf : nd.is_fully_expanded = true
      · simp only [hf, Bool.not_true, Bool.false_eq_true, if_false]
        have ht2 : nd.state.is_terminal = false := by simpa using ht
        obtain ⟨j, c, hj, hc⟩ :=
          best_uct_child_some m nd (is_fully_expanded_children_ne_nil nd ht2 hf)
        have hlt := sizeOf_child_lt nd c j hc
        obtain ⟨root1, node1, rng1, hres, hg⟩ :=
          ih c (j :: node) rng (by omega) (deref_cons root nd c node j hd hc)
        refine ⟨root1, node1, rng1, ?_, hg⟩
        rw [hj]
        simp only []
        split
        · next hnone => rw [hc] at hnone; exact absurd hnone (by simp)
        · next c2 hsome =>
          rw [hc] at hsome
          cases hsome
          exact hres
      · simp only [hf, Bool.not_false, if_true]
        rcases expand_cases root nd node rng with ⟨_, he⟩ | ⟨act, rng1, hact, he⟩
        · exact ⟨root, node, rng, he, nd, node, hd, Or.inl ⟨rfl, rfl⟩⟩
        · exact ⟨_, _, rng1, he, nd, node, hd, Or.inr ⟨act, hact, rfl, rfl⟩⟩

/-- The function `tree_policy` always returns, and what it returns is the tree grown
by at most one node together with a pointer into it. -/
theorem tree_policy_grown (m : MCTS) (root : MCTSNode) (rng : Rng) :
    ∃ root1 node1 rng1, tree_policy m root root [] rng = Except.ok (root1, node1, rng1) ∧
      Grown root root1 node1 :=
  tree_policy_grown_aux m root (sizeOf root) root [] rng (le_refl _) rfl

/-! ## What one growth step preserves -/

theorem allNodes_new (P : MCTSNode → Prop) (s : TicTacToeState) (a : Int)
    (h : P (MCTSNode.new s a)) : AllNodes P (MCTSNode.new s a) := by
  intro q x hq
  cases q with
  | nil =>
    simp only [get_at, Option.some.injEq] at hq
    subst hq
    exact h
  | cons j q => simp [get_at] at hq

theorem modify_at_child_actions_cons (f : MCTSNode → MCTSNode)
    (hf : ∀ n, (f n).action_from_parent = n.action_from_parent)
    (nd : MCTSNode) (i : Nat) (p : List Nat) :
    (modify_at f nd (i :: p)).children.map MCTSNode.action_from_parent =
      nd.children.map MCTSNode.action_from_parent := by
  simp only [modify_at, MCTSNode.with_children_children]
  rw [modify_nth_map]
  intro c
  exact modify_at_action f hf c p

theorem modify_at_children_length (f : MCTSNode → MCTSNode)
    (hf : ∀ n, n.children.length ≤ (f n).children.length) (nd : MCTSNode) (p : List Nat) :
    nd.children.length ≤ (modify_at f nd p).children.length := by
  cases p with
  | nil => exact hf nd
  | cons i p => simp [modify_at, modify_nth_length]

theorem grown_deref {root root1 : MCTSNode} {node : Ptr} (h : Grown root root1 node) :
    ∃ y, deref root1 node = some y := by
  obtain ⟨x, ptr, hx, ⟨h1, h2⟩ | ⟨act, _, h1, h2⟩⟩ := h
  · subst h1 h2
    exact ⟨x, hx⟩
  · subst h1 h2
    refine ⟨MCTSNode.new (x.state.after act) act, ?_⟩
    unfold deref at hx
    unfold deref update
    rw [List.reverse_cons, get_at_append, get_at_modify_at, hx]
    simp [get_at]

theorem grown_state {root root1 : MCTSNode} {node : Ptr} (h : Grown root root1 node) :
    root1.state = root.state := by
  obtain ⟨x, ptr, _, ⟨h1, _⟩ | ⟨act, _, h1, _⟩⟩ := h
  · rw [h1]
  · rw [h1]
    exact modify_at_state _ (fun n => MCTSNode.push_child_state n _) root _

theorem grown_visits {root root1 : MCTSNode} {node : Ptr} (h : Grown root root1 node) :
    root1.visits = root.visits := by
  obtain ⟨x, ptr, _, ⟨h1, _⟩ | ⟨act, _, h1, _⟩⟩ := h
  · rw [h1]
  · rw [h1]
    exact modify_at_field MCTSNode.visits _ (fun n => MCTSNode.push_child_visits n _)
      (fun _ _ => MCTSNode.with_children_visits _ _) root _

theorem grown_child_visits {root root1 : MCTSNode} {node : Ptr} (h : Grown root root1 node) :
    child_visits root1 = child_visits root := by
  obtain ⟨x, ptr, _, ⟨h1, _⟩ | ⟨act, _, h1, _⟩⟩ := h
  · rw [h1]
  · rw [h1]
    exact child_visits_modify_at_keep _ (fun n => MCTSNode.push_child_visits n _)
      (fun n => by simp [child_visits]) root _

theorem grown_children_length {root root1 : MCTSNode} {node : Ptr} (h : Grown root root1 node) :
    root.children.length ≤ root1.children.length := by
  obtain ⟨x, ptr, _, ⟨h1, _⟩ | ⟨act, _, h1, _⟩⟩ := h
  · rw [h1]
  · rw [h1]
    exact modify_at_children_length _ (fun n => by simp) root _

theorem grown_nodeLe {root root1 : MCTSNode} {node : Ptr} (h : Grown root root1 node) :
    NodeLe root root1 := by
  obtain ⟨x, ptr, _, ⟨h1, _⟩ | ⟨act, _, h1, _⟩⟩ := h
  · rw [h1]
    exact nodeLe_refl _
  · rw [h1]
    exact nodeLe_modify_at _ (fun n => nodeLe_push_child n _) root _

theorem grown_allNodes (P : MCTSNode → Prop) (hw : ∀ n cs, P n → P (n.with_children cs))
    (hnew : ∀ x act, P x → act ∈ x.state.legal_actions →
      P (MCTSNode.new (x.state.after act) act))
    {root root1 : MCTSNode} {node : Ptr} (h : Grown root root1 node) (hroot : AllNodes P root) :
    AllNodes P root1 := by
  obtain ⟨x, ptr, hx, ⟨h1, _⟩ | ⟨act, hact, h1, _⟩⟩ := h
  · rw [h1]
    exact hroot
  · rw [h1]
    have hPx : P x := hroot.deref hx
    have hchild := allNodes_new P _ _ (hnew x act hPx (untried_actions_subset x act hact))
    exact allNodes_modify_at P _ hw (fun y hy => allNodes_push_child P hw _ hchild y hy) root _
      hroot

/-- The actions carried by the children of the root stay legal actions of the root
state when the tree grows. -/
theorem grown_child_actions {root root1 : MCTSNode} {node : Ptr} (h : Grown root root1 node)
    (hroot : ∀ a ∈ root.children.map MCTSNode.action_from_parent, a ∈ root.state.legal_actions) :
    ∀ a ∈ root1.children.map MCTSNode.action_from_parent, a ∈ root.state.legal_actions := by
  obtain ⟨x, ptr, hx, ⟨h1, _⟩ | ⟨act, hact, h1, _⟩⟩ := h
  · rw [h1]
    exact hroot
  · rw [h1]
    unfold update
    cases hrev : ptr.reverse with
    | nil =>
      have hptr : ptr = [] := by simpa using hrev
      subst hptr
      simp only [deref, List.reverse_nil, get_at, Option.some.injEq] at hx
      subst hx
      intro a ha
      simp only [modify_at, MCTSNode.push_child_children, List.map_append, List.map_cons,
        List.map_nil, List.mem_append, List.mem_singleton, MCTSNode.new_action] at ha
      rcases ha with ha | ha
      · exact hroot a ha
      · rw [ha]
        exact untried_actions_subset _ act hact
    | cons i p =>
      rw [modify_at_child_actions_cons _ (fun n => MCTSNode.push_child_action n _)]
      exact hroot

/-! ## The rollout -/

theorem TicTacToeState.legal_actions_length_le (s : TicTacToeState) :
    s.legal_actions.length ≤ 9 := by
  unfold TicTacToeState.legal_actions
  rw [List.length_map]
  exact le_trans (List.length_filter_le _ _) (by simp)

theorem TicTacToeState.after_player (s : TicTacToeState) (a : Int) :
    (s.after a).player = -s.player := rfl

theorem TicTacToeState.legal_actions_after_length (s : TicTacToeState) (a : Int)
    (hp : s.player ≠ 0) (ha : a ∈ s.legal_actions) :
    (s.after a).legal_actions.length < s.legal_actions.length := by
  rw [TicTacToeState.legal_actions_after s a hp]
  apply List.length_filter_lt_length_iff_exists.mpr
  exact ⟨a, ha, by simp⟩

/-- The rollout from a state whose player is not `0` ends in a terminal state as soon
as the fuel covers the empty cells. -/
theorem rollout_ok (fuel : Nat) : ∀ (s : TicTacToeState) (rng : Rng), s.player ≠ 0 →
    s.legal_actions.length ≤ fuel →
    ∃ t rng1, rollout fuel s rng = Except.ok (t, rng1) ∧ t.is_terminal = true := by
  induction fuel with
  | zero =>
    intro s rng _ hlen
    have hnil : s.legal_actions = [] := List.length_eq_zero.mp (Nat.le_zero.mp hlen)
    have ht : s.is_terminal = true := (TicTacToeState.is_terminal_iff s).mpr (Or.inr hnil)
    exact ⟨s, rng, by simp [rollout, ht], ht⟩
  | succ fuel ih =>
    intro s rng hp hlen
    by_cases ht : s.is_terminal = true
    · exact ⟨s, rng, by simp [rollout, ht], ht⟩
    · have ht2 : s.is_terminal = false := by simpa using ht
      have hne := TicTacToeState.legal_actions_ne_nil s ht2
      have hpos : 0 < s.legal_actions.length := List.length_pos.mpr hne
      have hlt := uniform_int_lt rng _ hpos
      have hmem : s.legal_actions[(uniform_int rng s.legal_actions.length).1] ∈ s.legal_actions :=
        List.getElem_mem _
      have hdec := TicTacToeState.legal_actions_after_length s _ hp hmem
      obtain ⟨t, rng1, hr, hterm⟩ :=
        ih (s.after (s.legal_actions[(uniform_int rng s.legal_actions.length).1]))
          (uniform_int rng s.legal_actions.length).2
          (by rw [TicTacToeState.after_player]; exact neg_ne_zero.mpr hp) (by omega)
      refine ⟨t, rng1, ?_, hterm⟩
      rw [rollout]
      simp only [ht2, Bool.false_eq_true, if_false]
      rw [List.getElem?_eq_getElem hlt]
      simp only [TicTacToeState.next_state_of_mem _ _ hmem]
      exact hr

theorem rollout_terminal (fuel : Nat) (s : TicTacToeState) (rng : Rng)
    (ht : s.is_terminal = true) : rollout fuel s rng = Except.ok (s, rng) := by
  cases fuel <;> simp [rollout, ht]

theorem reward_of_range (w : Int) :
    0 ≤ reward_of w ∧ reward_of w ≤ 1 ∧ ∃ k : Nat, reward_of w = (k : ℚ) / 2 := by
  unfold reward_of
  split
  · exact ⟨by norm_num, by norm_num, 2, by norm_num⟩
  · split
    · exact ⟨by norm_num, by norm_num, 0, by norm_num⟩
    · exact ⟨by norm_num, by norm_num, 1, by norm_num⟩

theorem statsOk_backup_step (r : ℚ) (h0 : 0 ≤ r) (h1 : r ≤ 1) (hk : ∃ k : Nat, r = (k : ℚ) / 2)
    (n : MCTSNode) (hn : StatsOk n) : StatsOk (backup_step r n) := by
  obtain ⟨hw0, hwv, k, hk2⟩ := hn
  obtain ⟨j, hj⟩ := hk
  refine ⟨?_, ?_, k + j, ?_⟩
  · rw [backup_step_wins]; linarith
  · rw [backup_step_wins, backup_step_visits]; push_cast; linarith
  · rw [backup_step_wins, hk2, hj]; push_cast; ring

/-! ## One round of the search loop -/

theorem default_policy_tictactoe (fuel : Nat) (s : TicTacToeState) (rng : Rng) :
    default_policy fuel (GameState.tictactoe s) rng =
      match rollout fuel s rng with
      | Except.error e => Except.error e
      | Except.ok (t, rng1) => Except.ok (reward_of t.winner, rng1) := rfl

/-- A round that completes has grown the tree by at most one node and then backed up
one of the three rewards from the node that `tree_policy` returned. -/
theorem iteration_spec (m : MCTS) (fuel : Nat) (root : MCTSNode) (rng : Rng)
    (root2 : MCTSNode) (rng2 : Rng)
    (h : iteration m fuel root rng = Except.ok (root2, rng2)) :
    ∃ root1 node rng1 w, tree_policy m root root [] rng = Except.ok (root1, node, rng1) ∧
      Grown root root1 node ∧ root2 = backup (reward_of w) root1 node := by
  obtain ⟨root1, node1, rng1, hres, hg⟩ := tree_policy_grown m root rng
  obtain ⟨y, hy⟩ := grown_deref hg
  unfold iteration at h
  rw [hres] at h
  simp only [hy, default_policy_tictactoe] at h
  cases hr : rollout fuel y.state rng1 with
  | error e => simp [hr] at h
  | ok res =>
    obtain ⟨t, rng3⟩ := res
    simp only [hr, Except.ok.injEq, Prod.mk.injEq] at h
    exact ⟨root1, node1, rng1, t.winner, hres, hg, h.1.symm⟩

/-- A round completes when no node of the tree has player `0` and the fuel covers the
nine cells. -/
theorem iteration_total (m : MCTS) (fuel : Nat) (h9 : 9 ≤ fuel) (root : MCTSNode) (rng : Rng)
    (hp : AllNodes (fun x => x.state.player ≠ 0) root) :
    ∃ root2 rng2, iteration m fuel root rng = Except.ok (root2, rng2) := by
  obtain ⟨root1, node1, rng1, hres, hg⟩ := tree_policy_grown m root rng
  obtain ⟨y, hy⟩ := grown_deref hg
  have hp1 : AllNodes (fun x => x.state.player ≠ 0) root1 :=
    grown_allNodes _ (fun n cs hn => by simpa using hn)
      (fun x act hx _ => by
        simp only [MCTSNode.new_state, TicTacToeState.after_player]
        exact neg_ne_zero.mpr hx) hg hp
  have hyp : y.state.player ≠ 0 := hp1.deref hy
  obtain ⟨t, rng3, hr, _⟩ := rollout_ok fuel y.state rng1 hyp
    (le_trans (TicTacToeState.legal_actions_length_le _) h9)
  refine ⟨backup (reward_of t.winner) root1 node1, rng3, ?_⟩
  unfold iteration
  rw [hres]
  simp only [hy, default_policy_tictactoe, hr]

theorem iteration_visits (m : MCTS) (fuel : Nat) (root : MCTSNode) (rng : Rng)
    (root2 : MCTSNode) (rng2 : Rng)
    (h : iteration m fuel root rng = Except.ok (root2, rng2)) :
    root2.visits = root.visits + 1 ∧ child_visits root2 ≤ child_visits root + 1 := by
  obtain ⟨root1, node, _, w, _, hg, rfl⟩ := iteration_spec m fuel root rng root2 rng2 h
  constructor
  · rw [backup_visits, grown_visits hg]
  · have hb := backup_child_visits (reward_of w) root1 node
    rw [grown_child_visits hg] at hb
    split at hb <;> omega

theorem iteration_state (m : MCTS) (fuel : Nat) (root : MCTSNode) (rng : Rng)
    (root2 : MCTSNode) (rng2 : Rng)
    (h : iteration m fuel root rng = Except.ok (root2, rng2)) : root2.state = root.state := by
  obtain ⟨root1, node, _, w, _, hg, rfl⟩ := iteration_spec m fuel root rng root2 rng2 h
  rw [backup_state, grown_state hg]

theorem iteration_child_actions (m : MCTS) (fuel : Nat) (root : MCTSNode) (rng : Rng)
    (root2 : MCTSNode) (rng2 : Rng)
    (h : iteration m fuel root rng = Except.ok (root2, rng2))
    (hroot : ∀ a ∈ root.children.map MCTSNode.action_from_parent, a ∈ root.state.legal_actions) :
    ∀ a ∈ root2.children.map MCTSNode.action_from_parent, a ∈ root.state.legal_actions := by
  obtain ⟨root1, node, _, w, _, hg, rfl⟩ := iteration_spec m fuel root rng root2 rng2 h
  rw [backup_child_actions]
  exact grown_child_actions hg hroot

theorem iteration_allNodes (P : MCTSNode → Prop) (hw : ∀ n cs, P n → P (n.with_children cs))
    (hnew : ∀ x act, P x → act ∈ x.state.legal_actions →
      P (MCTSNode.new (x.state.after act) act))
    (hs : ∀ w n, P n → P (backup_step (reward_of w) n))
    (m : MCTS) (fuel : Nat) (root : MCTSNode) (rng : Rng) (root2 : MCTSNode) (rng2 : Rng)
    (h : iteration m fuel root rng = Except.ok (root2, rng2)) (hroot : AllNodes P root) :
    AllNodes P root2 := by
  obtain ⟨root1, node, _, w, _, hg, rfl⟩ := iteration_spec m fuel root rng root2 rng2 h
  exact backup_allNodes P _ hw (hs w) root1 node (grown_allNodes P hw hnew hg hroot)

theorem iteration_nodeLe (m : MCTS) (fuel : Nat) (root : MCTSNode) (rng : Rng)
    (root2 : MCTSNode) (rng2 : Rng)
    (h : iteration m fuel root rng = Except.ok (root2, rng2)) : NodeLe root root2 := by
  obtain ⟨root1, node, _, w, _, hg, rfl⟩ := iteration_spec m fuel root rng root2 rng2 h
  exact nodeLe_trans (grown_nodeLe hg) (backup_nodeLe _ (reward_of_range w).1 root1 node)

theorem backup_children_length (r : ℚ) (root : MCTSNode) (node : Ptr) :
    (backup r root node).children.length = root.children.length := by
  have h := congrArg List.length (backup_child_actions r root node)
  simpa using h

/-- On a root whose state is not terminal, `tree_policy` leaves the root with at least
one child. -/
theorem tree_policy_root_children (m : MCTS) (root : MCTSNode) (rng : Rng)
    (root1 : MCTSNode) (node1 : Ptr) (rng1 : Rng) (ht : root.state.is_terminal = false)
    (h : tree_policy m root root [] rng = Except.ok (root1, node1, rng1)) :
    root1.children ≠ [] := by
  by_cases hc : root.children = []
  · have hne := TicTacToeState.legal_actions_ne_nil root.state ht
    have hnf : root.is_fully_expanded = false := by
      unfold MCTSNode.is_fully_expanded
      simp only [hc, List.length_nil, decide_eq_false_iff_not]
      intro hz
      have : root.state.legal_actions.length = 0 := by exact_mod_cast hz.symm
      exact hne (List.length_eq_zero.mp this)
    rw [tree_policy] at h
    simp only [ht, hnf, Bool.false_eq_true, if_false, Bool.not_false, if_true] at h
    rcases expand_cases root root [] rng with ⟨hu, _⟩ | ⟨act, rng3, _, he⟩
    · rw [untried_actions_of_leaf root hc] at hu
      exact absurd hu hne
    · rw [he] at h
      simp only [Except.ok.injEq, Prod.mk.injEq] at h
      rw [← h.1]
      simp [update, modify_at]
  · obtain ⟨r1, n1, g1, hres, hg⟩ := tree_policy_grown m root rng
    rw [hres] at h
    simp only [Except.ok.injEq, Prod.mk.injEq] at h
    rw [← h.1]
    have hlen := grown_children_length hg
    intro hnil
    rw [hnil] at hlen
    exact hc (List.length_eq_zero.mp (Nat.le_zero.mp hlen))

theorem iteration_children_ne_nil (m : MCTS) (fuel : Nat) (root : MCTSNode) (rng : Rng)
    (root2 : MCTSNode) (rng2 : Rng) (ht : root.state.is_terminal = false)
    (h : iteration m fuel root rng = Except.ok (root2, rng2)) : root2.children ≠ [] := by
  obtain ⟨root1, node, rng1, w, htp, _, rfl⟩ := iteration_spec m fuel root rng root2 rng2 h
  have h1 := tree_policy_root_children m root rng root1 node rng1 ht htp
  intro hnil
  have hlen := backup_children_length (reward_of w) root1 node
  rw [hnil] at hlen
  exact h1 (List.length_eq_zero.mp hlen.symm)

/-- On a root whose state is terminal, a round only updates the statistics of the
root. -/
theorem iteration_terminal (m : MCTS) (fuel : Nat) (root : MCTSNode) (rng : Rng)
    (ht : root.state.is_terminal = true) :
    iteration m fuel root rng =
      Except.ok (backup_step (reward_of root.state.winner) root, rng) := by
  unfold iteration
  rw [tree_policy]
  simp only [ht, if_true, deref, List.reverse_nil, get_at, default_policy_tictactoe,
    rollout_terminal fuel root.state rng ht, backup, update, modify_at]

/-! ## The search loop -/

theorem search_loop_succ (m : MCTS) (fuel : Nat) (n : Nat) (root : MCTSNode) (rng : Rng) :
    search_loop m fuel (n + 1) root rng =
      match search_loop m fuel n root rng with
      | Except.error e => Except.error e
      | Except.ok (t, g) => iteration m fuel t g := by
  induction n generalizing root rng with
  | zero =>
    simp only [search_loop]
    cases iteration m fuel root rng with
    | error e => rfl
    | ok res => rfl
  | succ n ih =>
    rw [search_loop]
    cases hi : iteration m fuel root rng with
    | error e => simp [search_loop, hi]
    | ok res =>
      obtain ⟨t, g⟩ := res
      simp only []
      rw [ih t g]
      conv_rhs => rw [search_loop, hi]

/-- A property of trees that every round preserves holds after the loop. -/
theorem search_loop_preserves (m : MCTS) (fuel : Nat) (I : MCTSNode → Prop)
    (hI : ∀ root rng root2 rng2, I root →
      iteration m fuel root rng = Except.ok (root2, rng2) → I root2)
    (n : Nat) (root : MCTSNode) (rng : Rng) (t : MCTSNode) (g : Rng) (h0 : I root)
    (h : search_loop m fuel n root rng = Except.ok (t, g)) : I t := by
  induction n generalizing root rng with
  | zero =>
    simp only [search_loop, Except.ok.injEq, Prod.mk.injEq] at h
    rw [← h.1]
    exact h0
  | succ n ih =>
    rw [search_loop] at h
    cases hi : iteration m fuel root rng with
    | error e => simp [hi] at h
    | ok res =>
      obtain ⟨root1, rng1⟩ := res
      simp only [hi] at h
      exact ih root1 rng1 (hI root rng root1 rng1 h0 hi) h

theorem search_loop_total (m : MCTS) (fuel : Nat) (h9 : 9 ≤ fuel) (n : Nat) (root : MCTSNode)
    (rng : Rng) (hp : AllNodes (fun x => x.state.player ≠ 0) root) :
    ∃ t g, search_loop m fuel n root rng = Except.ok (t, g) := by
  induction n generalizing root rng with
  | zero => exact ⟨root, rng, rfl⟩
  | succ n ih =>
    obtain ⟨root1, rng1, hi⟩ := iteration_total m fuel h9 root rng hp
    have hp1 : AllNodes (fun x => x.state.player ≠ 0) root1 :=
      iteration_allNodes _ (fun n cs hn => by simpa using hn)
        (fun x act hx _ => by
          simp only [MCTSNode.new_state, TicTacToeState.after_player]
          exact neg_ne_zero.mpr hx)
        (fun w n hn => by simpa using hn) m fuel root rng root1 rng1 hi hp
    obtain ⟨t, g, hl⟩ := ih root1 rng1 hp1
    exact ⟨t, g, by rw [search_loop, hi]; exact hl⟩

theorem search_loop_visits (m : MCTS) (fuel : Nat) (n : Nat) (root : MCTSNode) (rng : Rng)
    (t : MCTSNode) (g : Rng) (h : search_loop m fuel n root rng = Except.ok (t, g)) :
    t.visits = root.visits + n ∧ child_visits t ≤ child_visits root + n := by
  induction n generalizing root rng with
  | zero =>
    simp only [search_loop, Except.ok.injEq, Prod.mk.injEq] at h
    rw [← h.1]
    simp
  | succ n ih =>
    rw [search_loop] at h
    cases hi : iteration m fuel root rng with
    | error e => simp [hi] at h
    | ok res =>
      obtain ⟨root1, rng1⟩ := res
      simp only [hi] at h
      obtain ⟨h1, h2⟩ := iteration_visits m fuel root rng root1 rng1 hi
      obtain ⟨h3, h4⟩ := ih root1 rng1 h
      constructor
      · rw [h3, h1]; push_cast; ring
      · push_cast; omega

theorem allNodes_root_node (P : MCTSNode → Prop) (s : TicTacToeState) (h : P (root_node s)) :
    AllNodes P (root_node s) :=
  allNodes_new P s (-1) h

/-! ## The final choice of `search` -/

/-- The final loop returns the running best if no remaining child beats it, and
otherwise the first remaining child with the largest visit count. -/
theorem most_visited_loop_spec (cs : List MCTSNode) (best : Option MCTSNode) (bv : Int) :
    (most_visited_loop cs best bv = best ∧ ∀ c ∈ cs, c.visits ≤ bv) ∨
    (∃ pre b post, cs = pre ++ b :: post ∧ most_visited_loop cs best bv = some b ∧
      bv < b.visits ∧ (∀ c ∈ pre, c.visits < b.visits) ∧ (∀ c ∈ post, c.visits ≤ b.visits)) := by
  induction cs generalizing best bv with
  | nil => exact Or.inl ⟨rfl, by simp⟩
  | cons c cs ih =>
    simp only [most_visited_loop]
    by_cases hc : c.visits > bv
    · simp only [hc, if_true]
      right
      rcases ih (some c) c.visits with ⟨h1, h2⟩ | ⟨pre, b, post, h1, h2, h3, h4, h5⟩
      · exact ⟨[], c, cs, rfl, h1, hc, by simp, h2⟩
      · refine ⟨c :: pre, b, post, by simp [h1], h2, by omega, ?_, h5⟩
        intro d hd
        rcases List.mem_cons.mp hd with hd | hd
        · rw [hd]; exact h3
        · exact h4 d hd
    · simp only [hc, if_false]
      rcases ih best bv with ⟨h1, h2⟩ | ⟨pre, b, post, h1, h2, h3, h4, h5⟩
      · left
        refine ⟨h1, ?_⟩
        intro d hd
        rcases List.mem_cons.mp hd with hd | hd
        · rw [hd]; omega
        · exact h2 d hd
      · right
        refine ⟨c :: pre, b, post, by simp [h1], h2, h3, ?_, h5⟩
        intro d hd
        rcases List.mem_cons.mp hd with hd | hd
        · rw [hd]; omega
        · exact h4 d hd

theorem statsOk_visits_nonneg (x : MCTSNode) (h : StatsOk x) : 0 ≤ x.visits := by
  obtain ⟨h0, h1, _⟩ := h
  have : (0 : ℚ) ≤ (x.visits : ℚ) := le_trans h0 h1
  exact_mod_cast this

/-- With at least one child and no negative visit count, the action returned is that
of the first child with the largest visit count. -/
theorem best_action_spec (root : MCTSNode) (hne : root.children ≠ [])
    (hv : ∀ c ∈ root.children, 0 ≤ c.visits) :
    ∃ pre b post, root.children = pre ++ b :: post ∧
      (∀ c ∈ pre, c.visits < b.visits) ∧ (∀ c ∈ post, c.visits ≤ b.visits) ∧
      best_action root = b.action_from_parent := by
  rcases most_visited_loop_spec root.children none (-1) with
    ⟨_, h2⟩ | ⟨pre, b, post, h1, h2, _, h4, h5⟩
  · cases hcs : root.children with
    | nil => exact absurd hcs hne
    | cons c cs =>
      have h3 := h2 c (by simp [hcs])
      have h4 := hv c (by simp [hcs])
      omega
  · exact ⟨pre, b, post, h1, h4, h5, by simp [best_action, h2]⟩

theorem allNodes_statsOk_iteration (m : MCTS) (fuel : Nat) (root : MCTSNode) (rng : Rng)
    (root2 : MCTSNode) (rng2 : Rng) (hroot : AllNodes StatsOk root)
    (h : iteration m fuel root rng = Except.ok (root2, rng2)) : AllNodes StatsOk root2 :=
  iteration_allNodes StatsOk
    (fun n cs hn => by simpa [StatsOk] using hn)
    (fun x act _ _ => ⟨by simp, by simp, 0, by simp⟩)
    (fun w n hn => statsOk_backup_step _ (reward_of_range w).1 (reward_of_range w).2.1
      (reward_of_range w).2.2 n hn)
    m fuel root rng root2 rng2 h hroot

theorem statsOk_root_node (s : TicTacToeState) : AllNodes StatsOk (root_node s) :=
  allNodes_root_node StatsOk s ⟨by simp [root_node], by simp [root_node], 0, by simp [root_node]⟩

theorem search_loop_statsOk (m : MCTS) (fuel : Nat) (n : Nat) (s : TicTacToeState) (rng : Rng)
    (t : MCTSNode) (g : Rng) (h : search_loop m fuel n (root_node s) rng = Except.ok (t, g)) :
    AllNodes StatsOk t :=
  search_loop_preserves m fuel (AllNodes StatsOk)
    (fun root rng root2 rng2 h0 hi => allNodes_statsOk_iteration m fuel root rng root2 rng2 h0 hi)
    n (root_node s) rng t g (statsOk_root_node s) h

theorem children_visits_nonneg (t : MCTSNode) (h : AllNodes StatsOk t) :
    ∀ c ∈ t.children, 0 ≤ c.visits := by
  intro c hc
  obtain ⟨i, hi, rfl⟩ := List.getElem_of_mem hc
  exact statsOk_visits_nonneg _ ((h.child (List.getElem?_eq_getElem hi)).self)

theorem player_ne_zero_root_node (s : TicTacToeState) (hp : s.player = 1 ∨ s.player = -1) :
    AllNodes (fun x => x.state.player ≠ 0) (root_node s) := by
  apply allNodes_root_node
  simp only [root_node, MCTSNode.new_state]
  rcases hp with h | h <;> rw [h] <;> decide

theorem first_root_state_tictactoe (s : TicTacToeState) :
    first_root_state (GameState.tictactoe s) = Except.error Fault.bad_index := by
  simp only [first_root_state, GameState.next_state,
    TicTacToeState.next_state_out_of_range s (-1) (by omega)]

theorem first_root_tictactoe (s : TicTacToeState) :
    first_root (GameState.tictactoe s) = Except.error Fault.bad_index := by
  unfold first_root
  rw [first_root_state_tictactoe]

theorem search_tictactoe (m : MCTS) (fuel : Nat) (s : TicTacToeState) (rng : Rng) :
    search m fuel (GameState.tictactoe s) rng = Except.error Fault.bad_index := by
  unfold search
  rw [first_root_tictactoe]

/-- When the first statement of `search` completes, `search` is the copy of the state,
the loop and the final selection. -/
theorem search_of_first_root (m : MCTS) (fuel : Nat) (gs : GameState) (s : TicTacToeState)
    (rng : Rng) (hf : first_root gs = Except.ok ()) (hc : clone_state gs = Except.ok s) :
    search m fuel gs rng =
      match search_loop m fuel m.iterations_.toNat (root_node s) rng with
      | Except.error e => Except.error e
      | Except.ok (root, _) => Except.ok (best_action root) := by
  unfold search
  rw [hf, hc]

theorem search_of_loop (m : MCTS) (fuel : Nat) (gs : GameState) (s : TicTacToeState)
    (rng : Rng) (root : MCTSNode) (rng1 : Rng) (hf : first_root gs = Except.ok ())
    (hc : clone_state gs = Except.ok s)
    (hl : search_loop m fuel m.iterations_.toNat (root_node s) rng = Except.ok (root, rng1)) :
    search m fuel gs rng = Except.ok (best_action root) := by
  rw [search_of_first_root m fuel gs s rng hf hc, hl]

/-! ## The player `0` -/

theorem stuck_state_after (a : Int) : stuck_state.after a = stuck_state := by
  unfold TicTacToeState.after TicTacToeState.store stuck_state
  simp

theorem rollout_stuck (fuel : Nat) (rng : Rng) :
    rollout fuel stuck_state rng = Except.error Fault.out_of_fuel := by
  have ht : stuck_state.is_terminal = false := by decide
  induction fuel generalizing rng with
  | zero =>
    rw [rollout]
    simp [ht]
  | succ fuel ih =>
    have hlt := uniform_int_lt rng stuck_state.legal_actions.length (by decide)
    rw [rollout]
    simp only [ht, Bool.false_eq_true, if_false]
    rw [List.getElem?_eq_getElem hlt]
    simp only [TicTacToeState.next_state_of_mem _ _ (List.getElem_mem _), stuck_state_after]
    exact ih _

theorem search_loop_root_facts (m : MCTS) (fuel : Nat) (n : Nat) (s : TicTacToeState) (rng : Rng)
    (t : MCTSNode) (g : Rng) (h : search_loop m fuel n (root_node s) rng = Except.ok (t, g)) :
    t.state = s ∧ ∀ a ∈ t.children.map MCTSNode.action_from_parent, a ∈ s.legal_actions := by
  refine search_loop_preserves m fuel
    (fun r => r.state = s ∧ ∀ a ∈ r.children.map MCTSNode.action_from_parent, a ∈ s.legal_actions)
    ?_ n (root_node s) rng t g ⟨rfl, by simp [root_node]⟩ h
  intro root rng1 root2 rng2 h0 hi
  obtain ⟨hs, ha⟩ := h0
  refine ⟨by rw [iteration_state m fuel root rng1 root2 rng2 hi, hs], ?_⟩
  have := iteration_child_actions m fuel root rng1 root2 rng2 hi (by rw [hs]; exact ha)
  rwa [hs] at this

theorem search_loop_children_ne_nil (m : MCTS) (fuel : Nat) (n : Nat) (s : TicTacToeState)
    (rng : Rng) (t : MCTSNode) (g : Rng) (hnt : s.is_terminal = false)
    (h : search_loop m fuel (n + 1) (root_node s) rng = Except.ok (t, g)) :
    t.children ≠ [] := by
  rw [search_loop_succ] at h
  cases hl : search_loop m fuel n (root_node s) rng with
  | error e => simp [hl] at h
  | ok res =>
    obtain ⟨t1, g1⟩ := res
    simp only [hl] at h
    have hs := (search_loop_root_facts m fuel n s rng t1 g1 hl).1
    exact iteration_children_ne_nil m fuel t1 g1 t g (by rw [hs]; exact hnt) h

theorem search_loop_terminal (m : MCTS) (fuel : Nat) (n : Nat) (root : MCTSNode) (rng : Rng)
    (ht : root.state.is_terminal = true) (hc : root.children = []) :
    ∃ t, search_loop m fuel n root rng = Except.ok (t, rng) ∧ t.children = [] := by
  induction n generalizing root with
  | zero => exact ⟨root, rfl, hc⟩
  | succ n ih =>
    obtain ⟨t, h1, h2⟩ := ih (backup_step (reward_of root.state.winner) root)
      (by simpa using ht) (by simpa using hc)
    refine ⟨t, ?_, h2⟩
    rw [search_loop, iteration_terminal m fuel root rng ht]
    exact h1

theorem rollout_no_bad_index (fuel : Nat) (s : TicTacToeState) (rng : Rng) :
    rollout fuel s rng ≠ Except.error Fault.bad_index := by
  induction fuel generalizing s rng with
  | zero =>
    rw [rollout]
    split <;> simp
  | succ fuel ih =>
    rw [rollout]
    by_cases ht : s.is_terminal = true
    · simp [ht]
    · have ht2 : s.is_terminal = false := by simpa using ht
      have hne := TicTacToeState.legal_actions_ne_nil s ht2
      have hlt := uniform_int_lt rng _ (List.length_pos.mpr hne)
      simp only [ht2, Bool.false_eq_true, if_false]
      rw [List.getElem?_eq_getElem hlt]
      simp only [TicTacToeState.next_state_of_mem _ _ (List.getElem_mem _)]
      exact ih _ _

/-! ## The checked properties -/

/-- C2, as stated, fails: the pile game without a stone is a terminal game state, and
`search` on it returns no sentinel, it raises the error of `clone_state`. -/
theorem search_other_terminal_raises :
    GameState.is_terminal (GameState.other (pile_game 0 1)) = true ∧
      search sample_engine 9 (GameState.other (pile_game 0 1)) sample_rng =
        Except.error Fault.clone_unsupported :=
  ⟨rfl, rfl⟩

/-- C2, amended: on a terminal `TicTacToeState`, for every iteration count, the loop
of `search` on the root built from the copy of the state ends with a root that has no
children, and the final selection over that root yields the sentinel -1, which is
what `search` returns whenever its first statement completes. -/
theorem search_terminal_returns_sentinel (m : MCTS) (fuel : Nat) (s : TicTacToeState)
    (rng : Rng) (ht : s.is_terminal = true) :
    ∃ root rng1, search_loop m fuel m.iterations_.toNat (root_node s) rng =
        Except.ok (root, rng1) ∧ root.children = [] ∧ best_action root = -1 ∧
      ∀ gs, first_root gs = Except.ok () → clone_state gs = Except.ok s →
        search m fuel gs rng = Except.ok (-1) := by
  obtain ⟨t, hl, hc⟩ := search_loop_terminal m fuel m.iterations_.toNat (root_node s) rng ht rfl
  have hb : best_action t = -1 := by simp [best_action, hc, most_visited_loop]
  refine ⟨t, rng, hl, hc, hb, ?_⟩
  intro gs hf hcl
  rw [search_of_loop m fuel gs s rng t rng hf hcl hl, hb]

/-- Witness for C2, amended: a board on which player one has completed the top row. -/
theorem search_terminal_returns_sentinel_witness :
    ∃ root rng1, search_loop sample_engine 9 sample_engine.iterations_.toNat
        (root_node won_state) sample_rng = Except.ok (root, rng1) ∧ root.children = [] ∧
      best_action root = -1 ∧
      ∀ gs, first_root gs = Except.ok () → clone_state gs = Except.ok won_state →
        search sample_engine 9 gs sample_rng = Except.ok (-1) :=
  search_terminal_returns_sentinel sample_engine 9 won_state sample_rng (by decide)

/-- C3, as stated, fails: with the iteration count `0`, `search` on an object of a
derived class with a checked `next_state` is not rejected, it returns the sentinel -1
as its result; the loop leaves the root node that was built for it; and on the empty
board itself the run ends with the fault of the game-state operation `next_state(-1)`
that its first statement invokes. -/
theorem search_zero_iterations_not_rejected :
    idle_engine.iterations_ ≤ 0 ∧
      search idle_engine 9 (GameState.other (checked_game TicTacToeState.init)) sample_rng =
        Except.ok (-1) ∧
      search_loop idle_engine 9 idle_engine.iterations_.toNat (root_node TicTacToeState.init)
        sample_rng = Except.ok (root_node TicTacToeState.init, sample_rng) ∧
      first_root_state (GameState.tictactoe TicTacToeState.init) =
        Except.error Fault.bad_index ∧
      search idle_engine 9 (GameState.tictactoe TicTacToeState.init) sample_rng =
        Except.error Fault.bad_index :=
  ⟨by decide, rfl, rfl, rfl, rfl⟩

/-- C3, amended: an iteration count `n ≤ 0` is not rejected.  The root node is built
from the copy of the state, the loop runs no round (the root is still the fresh node
when it ends), and the final selection yields the sentinel -1, which is what `search`
returns whenever its first statement completes. -/
theorem search_nonpositive_iterations (m : MCTS) (fuel : Nat) (s : TicTacToeState) (rng : Rng)
    (hn : m.iterations_ ≤ 0) :
    search_loop m fuel m.iterations_.toNat (root_node s) rng =
        Except.ok (MCTSNode.new s (-1), rng) ∧
      best_action (MCTSNode.new s (-1)) = -1 ∧
      ∀ gs, first_root gs = Except.ok () → clone_state gs = Except.ok s →
        search m fuel gs rng = Except.ok (-1) := by
  have h0 : m.iterations_.toNat = 0 := by omega
  have hl : search_loop m fuel m.iterations_.toNat (root_node s) rng =
      Except.ok (MCTSNode.new s (-1), rng) := by
    rw [h0]
    rfl
  refine ⟨hl, rfl, ?_⟩
  intro gs hf hc
  rw [search_of_loop m fuel gs s rng _ rng hf hc hl]
  rfl

/-- Witness for C3, amended: the iteration count `0` on the empty board. -/
theorem search_nonpositive_iterations_witness :
    search_loop idle_engine 9 idle_engine.iterations_.toNat (root_node TicTacToeState.init)
        sample_rng = Except.ok (MCTSNode.new TicTacToeState.init (-1), sample_rng) ∧
      best_action (MCTSNode.new TicTacToeState.init (-1)) = -1 ∧
      ∀ gs, first_root gs = Except.ok () → clone_state gs = Except.ok TicTacToeState.init →
        search idle_engine 9 gs sample_rng = Except.ok (-1) :=
  search_nonpositive_iterations idle_engine 9 TicTacToeState.init sample_rng (by decide)

/-- C4: the first game-state call of `search` is `next_state(-1)` on the input state.
At the empty board the action -1 is not a legal action of the state and -1 is the
index of none of the nine cells; on every `TicTacToeState` the call stores outside the
board, and the run of `search` ends with that fault whatever the engine and the
random stream. -/
theorem search_first_call_not_legal :
    first_root_state (GameState.tictactoe TicTacToeState.init) =
        GameState.next_state (GameState.tictactoe TicTacToeState.init) (-1) ∧
      (-1 : Int) ∉ TicTacToeState.init.legal_actions ∧
      (∀ i : Fin 9, (i.val : Int) ≠ -1) ∧
      (∀ s : TicTacToeState, (-1 : Int) ∉ s.legal_actions ∧
        s.next_state (-1) = Except.error Fault.bad_index ∧
        first_root_state (GameState.tictactoe s) = Except.error Fault.bad_index ∧
        ∀ m fuel rng, search m fuel (GameState.tictactoe s) rng =
          Except.error Fault.bad_index) := by
  refine ⟨rfl, by decide, ?_, ?_⟩
  · intro i
    omega
  · intro s
    refine ⟨?_, TicTacToeState.next_state_out_of_range s (-1) (by omega),
      first_root_state_tictactoe s, fun m fuel rng => search_tictactoe m fuel s rng⟩
    intro h
    have := TicTacToeState.legal_action_range s (-1) h
    omega

/-- C5, as stated, fails: the pile game with one stone is a game behind the
interface (not finished, one legal action), and `search` on it raises the error of
`clone_state`. -/
theorem search_other_game_raises :
    GameState.is_terminal (GameState.other (pile_game 1 1)) = false ∧
      GameState.legal_actions (GameState.other (pile_game 1 1)) = [0] ∧
      search sample_engine 9 (GameState.other (pile_game 1 1)) sample_rng =
        Except.error Fault.clone_unsupported :=
  ⟨rfl, rfl, rfl⟩

/-- C5, amended: the engine duplicates states with `clone_state`, a `dynamic_cast` to
`TicTacToeState` followed by a copy of board and player, never with `clone()`.  On an
object that the cast rejects, `clone_state` and the rollout raise the error, and
`search` returns no result: it raises that error when its first statement completes.
On an object that the cast accepts, `clone_state` yields the copy of its
`TicTacToeState` part, and the rollout is the rollout from that part.  On a
`TicTacToeState` the copy is the state that `clone()` yields, and the rollout
completes without an error when the player is 1 or -1 (rollout fuel covering the nine
cells). -/
theorem clone_state_knows_one_type (m : MCTS) (fuel : Nat) (rng : Rng) :
    (∀ g : OtherGame, g.as_tictactoe g.self = none →
      clone_state (GameState.other g) = Except.error Fault.clone_unsupported ∧
      default_policy fuel (GameState.other g) rng = Except.error Fault.clone_unsupported ∧
      (∀ a, search m fuel (GameState.other g) rng ≠ Except.ok a) ∧
      (first_root (GameState.other g) = Except.ok () →
        search m fuel (GameState.other g) rng = Except.error Fault.clone_unsupported)) ∧
    (∀ (g : OtherGame) (t : TicTacToeState), g.as_tictactoe g.self = some t →
      clone_state (GameState.other g) = Except.ok t.clone ∧
      default_policy fuel (GameState.other g) rng =
        default_policy fuel (GameState.tictactoe t) rng) ∧
    (∀ t : TicTacToeState,
      clone_state (GameState.tictactoe t) = Except.ok t.clone ∧
      GameState.clone (GameState.tictactoe t) = GameState.tictactoe t.clone ∧
      ((t.player = 1 ∨ t.player = -1) → 9 ≤ fuel →
        ∃ r g, default_policy fuel (GameState.tictactoe t) rng = Except.ok (r, g))) := by
  refine ⟨?_, ?_, fun t => ⟨rfl, rfl, ?_⟩⟩
  · intro g hg
    have hc : clone_state (GameState.other g) = Except.error Fault.clone_unsupported := by
      simp only [clone_state, hg]
    have hs : ∀ u, (match first_root (GameState.other g) with
        | Except.error e => Except.error e
        | Except.ok _ => (Except.error Fault.clone_unsupported : Except Fault Int)) = u →
        search m fuel (GameState.other g) rng = u := by
      intro u hu
      rw [← hu]
      unfold search
      rw [hc]
    refine ⟨hc, ?_, ?_, ?_⟩
    · unfold default_policy
      rw [hc]
    · intro a
      cases hf : first_root (GameState.other g) with
      | error e =>
        rw [hs (Except.error e) (by rw [hf])]
        simp
      | ok u =>
        rw [hs (Except.error Fault.clone_unsupported) (by rw [hf])]
        simp
    · intro hf
      exact hs _ (by rw [hf])
  · intro g t hg
    have hc : clone_state (GameState.other g) = Except.ok t.clone := by
      simp only [clone_state, hg, TicTacToeState.clone]
    refine ⟨hc, ?_⟩
    unfold default_policy
    rw [hc]
    rfl
  · intro hp hfuel
    have hp0 : t.player ≠ 0 := by rcases hp with h | h <;> rw [h] <;> decide
    obtain ⟨u, g, hr, _⟩ := rollout_ok fuel t rng hp0
      (le_trans (TicTacToeState.legal_actions_length_le t) hfuel)
    exact ⟨reward_of u.winner, g, by rw [default_policy_tictactoe, hr]⟩

/-- C6: for every tree that the loop of `search` ends with and whose root has at least
one child, the final selection yields the `action_from_parent` of the first child, in
child order, whose visit count is the largest among the children (every earlier child
has strictly fewer visits, no later child has more); that action is what `search`
returns whenever its first statement completes.  Such final trees exist: that is the
case for every non-terminal state with at least one iteration. -/
theorem search_returns_first_most_visited (m : MCTS) (fuel : Nat) (s : TicTacToeState)
    (rng : Rng) :
    (∀ root rng1,
      search_loop m fuel m.iterations_.toNat (root_node s) rng = Except.ok (root, rng1) →
      root.children ≠ [] →
      ∃ pre b post, root.children = pre ++ b :: post ∧
        (∀ c ∈ pre, c.visits < b.visits) ∧ (∀ c ∈ post, c.visits ≤ b.visits) ∧
        best_action root = b.action_from_parent ∧
        ∀ gs, first_root gs = Except.ok () → clone_state gs = Except.ok s →
          search m fuel gs rng = Except.ok b.action_from_parent) ∧
    ((s.player = 1 ∨ s.player = -1) → s.is_terminal = false → 1 ≤ m.iterations_ → 9 ≤ fuel →
      ∃ root rng1,
        search_loop m fuel m.iterations_.toNat (root_node s) rng = Except.ok (root, rng1) ∧
        root.children ≠ []) := by
  constructor
  · intro root rng1 hl hne
    have hst := search_loop_statsOk m fuel _ s rng root rng1 hl
    obtain ⟨pre, b, post, hcs, h1, h2, hba⟩ :=
      best_action_spec root hne (children_visits_nonneg root hst)
    refine ⟨pre, b, post, hcs, h1, h2, hba, ?_⟩
    intro gs hf hc
    rw [search_of_loop m fuel gs s rng root rng1 hf hc hl, hba]
  · intro hp hnt hn hfuel
    obtain ⟨k, hk⟩ : ∃ k, m.iterations_.toNat = k + 1 := ⟨m.iterations_.toNat - 1, by omega⟩
    obtain ⟨t, g, hl⟩ := search_loop_total m fuel hfuel (k + 1) (root_node s) rng
      (player_ne_zero_root_node s hp)
    exact ⟨t, g, by rw [hk]; exact hl, search_loop_children_ne_nil m fuel k s rng t g hnt hl⟩

/-- C7: for every tic-tac-toe state, every iteration count `n ≥ 0` and every random
stream, when the loop of `search` ends the visit count of the root equals `n` and the
visit counts of the direct children of the root sum to at most `n`; and the loop does
end when the player of the state is 1 or -1 (rollout fuel covering the nine cells). -/
theorem root_visits_after_loop (m : MCTS) (fuel : Nat) (s : TicTacToeState) (rng : Rng)
    (hn : 0 ≤ m.iterations_) :
    (∀ root rng1,
      search_loop m fuel m.iterations_.toNat (root_node s) rng = Except.ok (root, rng1) →
      root.visits = m.iterations_ ∧ child_visits root ≤ m.iterations_) ∧
    ((s.player = 1 ∨ s.player = -1) → 9 ≤ fuel →
      ∃ root rng1,
        search_loop m fuel m.iterations_.toNat (root_node s) rng = Except.ok (root, rng1)) := by
  constructor
  · intro root rng1 hl
    obtain ⟨h1, h2⟩ := search_loop_visits m fuel _ (root_node s) rng root rng1 hl
    have hv : (root_node s).visits = 0 := rfl
    have hc : child_visits (root_node s) = 0 := rfl
    rw [hv] at h1
    rw [hc] at h2
    constructor <;> omega
  · intro hp hfuel
    exact search_loop_total m fuel hfuel _ (root_node s) rng (player_ne_zero_root_node s hp)

/-- Witness for C7: the sample engine on the empty board. -/
theorem root_visits_after_loop_witness :
    (∀ root rng1,
      search_loop sample_engine 9 sample_engine.iterations_.toNat
        (root_node TicTacToeState.init) sample_rng = Except.ok (root, rng1) →
      root.visits = sample_engine.iterations_ ∧ child_visits root ≤ sample_engine.iterations_) ∧
    ((TicTacToeState.init.player = 1 ∨ TicTacToeState.init.player = -1) → 9 ≤ 9 →
      ∃ root rng1,
        search_loop sample_engine 9 sample_engine.iterations_.toNat
          (root_node TicTacToeState.init) sample_rng = Except.ok (root, rng1)) :=
  root_visits_after_loop sample_engine 9 TicTacToeState.init sample_rng (by decide)

/-- C8: after any number `k` of rounds of the loop of `search`, every node of the
tree has `0 ≤ wins ≤ visits` with `wins` a whole number of halves; and in the tree
after the next round every node is still at its place with `wins` and `visits` not
smaller than before.  The rounds do complete when the player of the state is 1 or -1
(rollout fuel covering the nine cells). -/
theorem stats_consistent_and_monotone (m : MCTS) (fuel : Nat) (s : TicTacToeState) (rng : Rng)
    (k : Nat) :
    (∀ t g, search_loop m fuel k (root_node s) rng = Except.ok (t, g) →
      AllNodes StatsOk t ∧
      ∀ t2 g2, search_loop m fuel (k + 1) (root_node s) rng = Except.ok (t2, g2) →
        AllNodes StatsOk t2 ∧ NodeLe t t2) ∧
    ((s.player = 1 ∨ s.player = -1) → 9 ≤ fuel →
      ∃ t g t2 g2, search_loop m fuel k (root_node s) rng = Except.ok (t, g) ∧
        search_loop m fuel (k + 1) (root_node s) rng = Except.ok (t2, g2)) := by
  constructor
  · intro t g hl
    refine ⟨search_loop_statsOk m fuel k s rng t g hl, ?_⟩
    intro t2 g2 hl2
    refine ⟨search_loop_statsOk m fuel (k + 1) s rng t2 g2 hl2, ?_⟩
    rw [search_loop_succ, hl] at hl2
    exact iteration_nodeLe m fuel t g t2 g2 hl2
  · intro hp hfuel
    obtain ⟨t, g, hl⟩ := search_loop_total m fuel hfuel k (root_node s) rng
      (player_ne_zero_root_node s hp)
    obtain ⟨t2, g2, hl2⟩ := search_loop_total m fuel hfuel (k + 1) (root_node s) rng
      (player_ne_zero_root_node s hp)
    exact ⟨t, g, t2, g2, hl, hl2⟩

/-- C9: `is_terminal()` is true exactly when `winner()` is not 0 or there is no legal
action, which is when the board is full; so a non-terminal state has a legal action.
Hence the draw of the rollout is never over an empty range (no element access outside
`acts`), and neither is the draw of `expand`, whose range at a childless node of a
non-terminal state is the whole non-empty list of legal actions. -/
theorem is_terminal_iff_winner_or_full (s : TicTacToeState) :
    (s.is_terminal = true ↔ (s.winner ≠ 0 ∨ s.legal_actions = [])) ∧
    (s.legal_actions = [] ↔ ∀ i : Fin 9, s.board i ≠ 0) ∧
    (s.is_terminal = false → s.legal_actions ≠ []) ∧
    (∀ fuel rng, rollout fuel s rng ≠ Except.error Fault.bad_index) ∧
    (∀ nd : MCTSNode, nd.state = s → nd.children = [] → s.is_terminal = false →
      untried_actions nd = s.legal_actions ∧ untried_actions nd ≠ []) ∧
    (∀ (root nd : MCTSNode) (node : Ptr) (rng : Rng), nd.state = s →
      expand root nd node rng ≠ Except.error Fault.bad_index) := by
  refine ⟨TicTacToeState.is_terminal_iff s, TicTacToeState.legal_actions_eq_nil s,
    TicTacToeState.legal_actions_ne_nil s, fun fuel rng => rollout_no_bad_index fuel s rng,
    ?_, ?_⟩
  · intro nd hs hc hnt
    have h := untried_actions_of_leaf nd hc
    rw [hs] at h
    exact ⟨h, by rw [h]; exact TicTacToeState.legal_actions_ne_nil s hnt⟩
  · intro root nd node rng _
    rcases expand_cases root nd node rng with ⟨_, he⟩ | ⟨act, rng1, _, he⟩ <;>
      · rw [he]
        simp

/-- C10: for a state with player 1 or -1 and a legal action `a`, `next_state(a)`
returns a state that has the other player to move, holds the mover in cell `a` and the
old contents in the other eight cells, and whose legal actions are those of the old
state without `a`, in the same order.  (`next_state` is a function of the value of
the receiver: the receiver is not changed by the call.) -/
theorem next_state_frame (s : TicTacToeState) (a : Int)
    (hp : s.player = 1 ∨ s.player = -1) (ha : a ∈ s.legal_actions) :
    ∃ t, s.next_state a = Except.ok t ∧
      t.current_player = -s.player ∧
      (∃ i : Fin 9, (i.val : Int) = a ∧ t.board i = s.player ∧
        ∀ j : Fin 9, j ≠ i → t.board j = s.board j) ∧
      t.legal_actions = s.legal_actions.filter (fun x => decide (x ≠ a)) ∧
      (∀ x, x ∈ t.legal_actions ↔ (x ∈ s.legal_actions ∧ x ≠ a)) := by
  have hp0 : s.player ≠ 0 := by rcases hp with h | h <;> rw [h] <;> decide
  obtain ⟨i, hi, _⟩ := (TicTacToeState.mem_legal_actions s a).mp ha
  have hl := TicTacToeState.legal_actions_after s a hp0
  refine ⟨s.after a, TicTacToeState.next_state_of_mem s a ha, rfl, ⟨i, hi, ?_, ?_⟩, hl, ?_⟩
  · simp [TicTacToeState.after, TicTacToeState.store, hi]
  · intro j hj
    have hne : (j.val : Int) ≠ a := by
      intro h
      apply hj
      apply Fin.ext
      omega
    simp [TicTacToeState.after, TicTacToeState.store, hne]
  · intro x
    rw [hl]
    simp [List.mem_filter]

/-- Witness for C10: the centre cell on the empty board. -/
theorem next_state_frame_witness :
    ∃ t, TicTacToeState.init.next_state 4 = Except.ok t ∧
      t.current_player = -TicTacToeState.init.player ∧
      (∃ i : Fin 9, (i.val : Int) = 4 ∧ t.board i = TicTacToeState.init.player ∧
        ∀ j : Fin 9, j ≠ i → t.board j = TicTacToeState.init.board j) ∧
      t.legal_actions = TicTacToeState.init.legal_actions.filter (fun x => decide (x ≠ 4)) ∧
      (∀ x, x ∈ t.legal_actions ↔ (x ∈ TicTacToeState.init.legal_actions ∧ x ≠ 4)) :=
  next_state_frame TicTacToeState.init 4 (by decide) (by decide)

/-! ## Draws, plays and the rollout -/

theorem winner_loop_eq_zero (b : Fin 9 → Int) (l : List (Fin 9 × Fin 9 × Fin 9))
    (h : ∀ ln ∈ l, b ln.1 + b ln.2.1 + b ln.2.2 ≠ 3 ∧ b ln.1 + b ln.2.1 + b ln.2.2 ≠ -3) :
    TicTacToeState.winner_loop b l = 0 := by
  induction l with
  | nil => rfl
  | cons ln rest ih =>
    have h1 := h ln (by simp)
    simp only [TicTacToeState.winner_loop, h1.1, h1.2, if_false]
    exact ih (fun x hx => h x (by simp [hx]))

theorem winner_loop_range (b : Fin 9 → Int) (l : List (Fin 9 × Fin 9 × Fin 9)) :
    TicTacToeState.winner_loop b l = 1 ∨ TicTacToeState.winner_loop b l = -1 ∨
      TicTacToeState.winner_loop b l = 0 := by
  induction l with
  | nil => exact Or.inr (Or.inr rfl)
  | cons ln rest ih =>
    simp only [TicTacToeState.winner_loop]
    split
    · exact Or.inl rfl
    · split
      · exact Or.inr (Or.inl rfl)
      · exact ih

theorem TicTacToeState.winner_range (s : TicTacToeState) :
    s.winner = 1 ∨ s.winner = -1 ∨ s.winner = 0 :=
  winner_loop_range s.board TicTacToeState.lines

theorem play_moves_nil (s : TicTacToeState) : play_moves s [] = some s := rfl

/-- A move of a play is a legal action, so its `next_state` stores inside the board. -/
theorem play_moves_cons (s : TicTacToeState) (a : Int) (rest : List Int) :
    play_moves s (a :: rest) =
      if s.is_terminal = false ∧ a ∈ s.legal_actions then play_moves (s.after a) rest
      else none := by
  rw [play_moves]
  split
  · next h => simp only [TicTacToeState.next_state_of_mem s a h.2]
  · rfl

theorem play_moves_append (s : TicTacToeState) (l1 l2 : List Int) :
    play_moves s (l1 ++ l2) = (play_moves s l1).bind (fun t => play_moves t l2) := by
  induction l1 generalizing s with
  | nil => rfl
  | cons a rest ih =>
    simp only [List.cons_append, play_moves_cons]
    split
    · exact ih _
    · rfl

/-- Every move of a play fills one empty cell. -/
theorem play_moves_length (s t : TicTacToeState) (moves : List Int) (hp : s.player ≠ 0)
    (h : play_moves s moves = some t) :
    moves.length + t.legal_actions.length ≤ s.legal_actions.length ∧ t.player ≠ 0 := by
  induction moves generalizing s with
  | nil =>
    simp only [play_moves, Option.some.injEq] at h
    subst h
    exact ⟨by simp, hp⟩
  | cons a rest ih =>
    simp only [play_moves_cons] at h
    split at h
    · next hc =>
      have hdec := TicTacToeState.legal_actions_after_length s a hp hc.2
      have := ih (s.after a)
        (by rw [TicTacToeState.after_player]; exact neg_ne_zero.mpr hp) h
      exact ⟨by simp only [List.length_cons]; omega, this.2⟩
    · exact absurd h (by simp)

/-- The rollout is a play of legal moves that ends in a terminal state, with no more
moves than the state has empty cells. -/
theorem rollout_plays (fuel : Nat) : ∀ (s : TicTacToeState) (rng : Rng), s.player ≠ 0 →
    s.legal_actions.length ≤ fuel →
    ∃ t rng1 moves, rollout fuel s rng = Except.ok (t, rng1) ∧ play_moves s moves = some t ∧
      t.is_terminal = true ∧ moves.length ≤ s.legal_actions.length := by
  induction fuel with
  | zero =>
    intro s rng _ hlen
    have hnil : s.legal_actions = [] := List.length_eq_zero.mp (Nat.le_zero.mp hlen)
    have ht : s.is_terminal = true := (TicTacToeState.is_terminal_iff s).mpr (Or.inr hnil)
    exact ⟨s, rng, [], by simp [rollout, ht], rfl, ht, by simp⟩
  | succ fuel ih =>
    intro s rng hp hlen
    by_cases ht : s.is_terminal = true
    · exact ⟨s, rng, [], by simp [rollout, ht], rfl, ht, by simp⟩
    · have ht2 : s.is_terminal = false := by simpa using ht
      have hne := TicTacToeState.legal_actions_ne_nil s ht2
      have hpos : 0 < s.legal_actions.length := List.length_pos.mpr hne
      have hlt := uniform_int_lt rng _ hpos
      have hmem : s.legal_actions[(uniform_int rng s.legal_actions.length).1] ∈ s.legal_actions :=
        List.getElem_mem _
      have hdec := TicTacToeState.legal_actions_after_length s _ hp hmem
      obtain ⟨t, rng1, moves, hr, hplay, hterm, hmv⟩ :=
        ih (s.after (s.legal_actions[(uniform_int rng s.legal_actions.length).1]))
          (uniform_int rng s.legal_actions.length).2
          (by rw [TicTacToeState.after_player]; exact neg_ne_zero.mpr hp) (by omega)
      refine ⟨t, rng1, s.legal_actions[(uniform_int rng s.legal_actions.length).1] :: moves,
        ?_, ?_, hterm, by simp only [List.length_cons]; omega⟩
      · rw [rollout]
        simp only [ht2, Bool.false_eq_true, if_false]
        rw [List.getElem?_eq_getElem hlt]
        simp only [TicTacToeState.next_state_of_mem _ _ hmem]
        exact hr
      · simp only [play_moves_cons, ht2, hmem, and_self, if_true]
        exact hplay

theorem player_pm_ne_zero (s : TicTacToeState) (hp : s.player = 1 ∨ s.player = -1) :
    s.player ≠ 0 := by
  rcases hp with h | h <;> rw [h] <;> decide

theorem after_player_pm (s : TicTacToeState) (a : Int) (hp : s.player = 1 ∨ s.player = -1) :
    (s.after a).player = 1 ∨ (s.after a).player = -1 := by
  rw [TicTacToeState.after_player]
  rcases hp with h | h <;> rw [h] <;> simp

/-! ## Two runs on the same draws -/

theorem uniform_int_same (a b : Rng) (n : Nat) (h : same_stream a b) :
    (uniform_int a n).1 = (uniform_int b n).1 ∧
      same_stream (uniform_int a n).2 (uniform_int b n).2 := by
  constructor
  · have := h 0
    simp only [Nat.add_zero] at this
    simp [uniform_int, this]
  · intro i
    have := h (1 + i)
    simp only [uniform_int]
    rw [← Nat.add_assoc, ← Nat.add_assoc] at this
    exact this

theorem expand_same (root nd : MCTSNode) (node : Ptr) (a b : Rng) (h : same_stream a b) :
    SameRun3 (expand root nd node a) (expand root nd node b) := by
  obtain ⟨h1, h2⟩ := uniform_int_same a b (untried_actions nd).length h
  unfold expand
  by_cases hu : (untried_actions nd).isEmpty = true
  · simp only [hu, if_true]
    exact Or.inr ⟨root, node, a, b, rfl, rfl, h⟩
  · simp only [hu, Bool.false_eq_true, if_false]
    rw [← h1]
    cases (untried_actions nd)[(uniform_int a (untried_actions nd).length).1]? with
    | none => exact Or.inl ⟨Fault.bad_index, rfl, rfl⟩
    | some act =>
      simp only []
      cases nd.state.next_state act with
      | error e => exact Or.inl ⟨e, rfl, rfl⟩
      | ok st => exact Or.inr ⟨_, _, _, _, rfl, rfl, h2⟩

theorem tree_policy_same_aux (m : MCTS) (root : MCTSNode) (n : Nat) :
    ∀ (nd : MCTSNode) (node : Ptr) (a b : Rng), sizeOf nd ≤ n → same_stream a b →
      SameRun3 (tree_policy m root nd node a) (tree_policy m root nd node b) := by
  induction n with
  | zero =>
    intro nd node a b hsz _
    cases nd with
    | mk x p w v s cs => simp only [MCTSNode.mk.sizeOf_spec] at hsz; omega
  | succ n ih =>
    intro nd node a b hsz h
    rw [tree_policy, tree_policy]
    by_cases ht : nd.state.is_terminal = true
    · simp only [ht, if_true]
      exact Or.inr ⟨root, node, a, b, rfl, rfl, h⟩
    · simp only [ht, Bool.false_eq_true, if_false]
      by_cases hf : nd.is_fully_expanded = true
      · simp only [hf, Bool.not_true, Bool.false_eq_true, if_false]
        cases hb : best_uct_child m nd with
        | none => exact Or.inl ⟨Fault.null_node, rfl, rfl⟩
        | some j =>
          simp only []
          split
          · exact Or.inl ⟨Fault.null_node, rfl, rfl⟩
          · next c hc =>
            exact ih c (j :: node) a b (by have := sizeOf_child_lt nd c j hc; omega) h
      · simp only [hf, Bool.not_false, if_true]
        exact expand_same root nd node a b h

theorem rollout_same (fuel : Nat) : ∀ (s : TicTacToeState) (a b : Rng), same_stream a b →
    SameRun (rollout fuel s a) (rollout fuel s b) := by
  induction fuel with
  | zero =>
    intro s a b h
    rw [rollout, rollout]
    by_cases ht : s.is_terminal = true
    · simp only [ht, if_true]
      exact Or.inr ⟨s, a, b, rfl, rfl, h⟩
    · simp only [ht, Bool.false_eq_true, if_false]
      exact Or.inl ⟨Fault.out_of_fuel, rfl, rfl⟩
  | succ fuel ih =>
    intro s a b h
    obtain ⟨h1, h2⟩ := uniform_int_same a b s.legal_actions.length h
    rw [rollout, rollout]
    by_cases ht : s.is_terminal = true
    · simp only [ht, if_true]
      exact Or.inr ⟨s, a, b, rfl, rfl, h⟩
    · simp only [ht, Bool.false_eq_true, if_false]
      rw [← h1]
      cases s.legal_actions[(uniform_int a s.legal_actions.length).1]? with
      | none => exact Or.inl ⟨Fault.bad_index, rfl, rfl⟩
      | some act =>
        simp only []
        cases s.next_state act with
        | error e => exact Or.inl ⟨e, rfl, rfl⟩
        | ok st => exact ih _ _ _ h2

theorem default_policy_same (fuel : Nat) (s : TicTacToeState) (a b : Rng)
    (h : same_stream a b) :
    SameRun (default_policy fuel (GameState.tictactoe s) a)
      (default_policy fuel (GameState.tictactoe s) b) := by
  rw [default_policy_tictactoe, default_policy_tictactoe]
  rcases rollout_same fuel s a b h with ⟨e, h1, h2⟩ | ⟨t, a1, b1, h1, h2, h3⟩
  · rw [h1, h2]
    exact Or.inl ⟨e, rfl, rfl⟩
  · rw [h1, h2]
    exact Or.inr ⟨_, a1, b1, rfl, rfl, h3⟩

theorem iteration_same (m : MCTS) (fuel : Nat) (root : MCTSNode) (a b : Rng)
    (h : same_stream a b) : SameRun (iteration m fuel root a) (iteration m fuel root b) := by
  unfold iteration
  rcases tree_policy_same_aux m root (sizeOf root) root [] a b (le_refl _) h with
    ⟨e, h1, h2⟩ | ⟨r, n, a1, b1, h1, h2, h3⟩
  · rw [h1, h2]
    exact Or.inl ⟨e, rfl, rfl⟩
  · rw [h1, h2]
    simp only []
    cases deref r n with
    | none => exact Or.inl ⟨Fault.null_node, rfl, rfl⟩
    | some nd =>
      simp only []
      rcases default_policy_same fuel nd.state a1 b1 h3 with
        ⟨e, h4, h5⟩ | ⟨w, a2, b2, h4, h5, h6⟩
      · rw [h4, h5]
        exact Or.inl ⟨e, rfl, rfl⟩
      · rw [h4, h5]
        exact Or.inr ⟨_, a2, b2, rfl, rfl, h6⟩

theorem search_loop_same (m : MCTS) (fuel : Nat) (n : Nat) : ∀ (root : MCTSNode) (a b : Rng),
    same_stream a b → SameRun (search_loop m fuel n root a) (search_loop m fuel n root b) := by
  induction n with
  | zero =>
    intro root a b h
    exact Or.inr ⟨root, a, b, rfl, rfl, h⟩
  | succ n ih =>
    intro root a b h
    rw [search_loop, search_loop]
    rcases iteration_same m fuel root a b h with ⟨e, h1, h2⟩ | ⟨t, a1, b1, h1, h2, h3⟩
    · rw [h1, h2]
      exact Or.inl ⟨e, rfl, rfl⟩
    · rw [h1, h2]
      exact ih t a1 b1 h3

/-! ## `backup` as one pass along the path -/

theorem modify_nth_modify_nth (a b : MCTSNode → MCTSNode) (l : List MCTSNode) (i : Nat) :
    modify_nth a (modify_nth b l i) i = modify_nth (fun c => a (b c)) l i := by
  induction l generalizing i with
  | nil => rfl
  | cons c cs ih => cases i <;> simp [modify_nth, ih]

theorem modify_nth_congr (a b : MCTSNode → MCTSNode) (l : List MCTSNode) (i : Nat)
    (h : ∀ c, l[i]? = some c → a c = b c) : modify_nth a l i = modify_nth b l i := by
  induction l generalizing i with
  | nil => rfl
  | cons c cs ih =>
    cases i with
    | zero => simp [modify_nth, h c (by simp)]
    | succ i =>
      simp only [modify_nth, List.cons.injEq, true_and]
      exact ih i (fun d hd => h d (by simpa using hd))

theorem modify_nth_append_length (f : MCTSNode → MCTSNode) (l : List MCTSNode) (c : MCTSNode) :
    modify_nth f (l ++ [c]) l.length = l ++ [f c] := by
  induction l with
  | nil => rfl
  | cons d l ih => simp [modify_nth, ih]

@[simp] theorem MCTSNode.with_children_with_children (n : MCTSNode) (cs ds : List MCTSNode) :
    (n.with_children cs).with_children ds = n.with_children ds := by cases n; rfl

@[simp] theorem MCTSNode.with_children_player (n : MCTSNode) (cs : List MCTSNode) :
    (n.with_children cs).player_to_move = n.player_to_move := by cases n; rfl

@[simp] theorem backup_step_player (r : ℚ) (n : MCTSNode) :
    (backup_step r n).player_to_move = n.player_to_move := by cases n; rfl

theorem along_modify_at (f h g : MCTSNode → MCTSNode) (nd : MCTSNode) (p s : List Nat) :
    along f h (modify_at g nd (p ++ s)) p = along f (fun x => h (modify_at g x s)) nd p := by
  induction p generalizing nd with
  | nil => rfl
  | cons i p ih =>
    simp only [List.cons_append, modify_at, along, MCTSNode.with_children_children,
      MCTSNode.with_children_with_children, modify_nth_modify_nth]
    congr 2
    exact modify_nth_congr _ _ _ _ (fun c _ => ih c)

theorem along_append (f h : MCTSNode → MCTSNode) (nd : MCTSNode) (p s : List Nat) :
    along f h nd (p ++ s) = along f (fun x => along f h x s) nd p := by
  induction p generalizing nd with
  | nil => rfl
  | cons i p ih =>
    simp only [List.cons_append, along]
    congr 2
    exact modify_nth_congr _ _ _ _ (fun c _ => ih c)

/-- The last function of `along` matters at the node at the end of the way only. -/
theorem along_congr_end (f h h2 : MCTSNode → MCTSNode) (nd x : MCTSNode) (p : List Nat)
    (hx : get_at nd p = some x) (hh : h x = h2 x) : along f h nd p = along f h2 nd p := by
  induction p generalizing nd with
  | nil =>
    simp only [get_at, Option.some.injEq] at hx
    subst hx
    exact hh
  | cons i p ih =>
    simp only [along]
    congr 2
    apply modify_nth_congr
    intro c hc
    simp only [get_at, hc] at hx
    exact ih c hx

/-- The loop of `backup`, which climbs from the node to the root, updates the same
nodes as one pass from the root down to the node. -/
theorem backup_eq_along (r : ℚ) (root : MCTSNode) (node : Ptr) :
    backup r root node = along (backup_step r) (backup_step r) root node.reverse := by
  induction node generalizing root with
  | nil => rfl
  | cons i up ih =>
    simp only [backup, update]
    rw [ih, List.reverse_cons, along_modify_at, along_append]
    rfl

/-- What the pass of `backup` does to each node of the tree: the nodes on the way get one
more visit and the reward, every node keeps its place, its action, its state and the
number of its children. -/
theorem along_backup_get_at (r : ℚ) : ∀ (P : List Nat) (nd : MCTSNode) (q : List Nat)
    (y : MCTSNode), get_at nd q = some y →
    ∃ y2, get_at (along (backup_step r) (backup_step r) nd P) q = some y2 ∧
      y2.action_from_parent = y.action_from_parent ∧ y2.player_to_move = y.player_to_move ∧
      y2.state = y.state ∧ y2.children.length = y.children.length ∧
      (q <+: P → y2.visits = y.visits + 1 ∧ y2.wins = y.wins + r) ∧
      (¬ q <+: P → y2.visits = y.visits ∧ y2.wins = y.wins) := by
  intro P
  induction P with
  | nil =>
    intro nd q y hq
    cases q with
    | nil =>
      simp only [get_at, Option.some.injEq] at hq
      subst hq
      exact ⟨backup_step r nd, rfl, by simp, by simp, by simp, by simp,
        fun _ => ⟨by simp, backup_step_wins r nd⟩, fun h => absurd (List.prefix_refl _) h⟩
    | cons j q =>
      refine ⟨y, ?_, rfl, rfl, rfl, rfl, fun h => ?_, fun _ => ⟨rfl, rfl⟩⟩
      · simpa [along, get_at] using hq
      · simp at h
  | cons i P ih =>
    intro nd q y hq
    cases q with
    | nil =>
      simp only [get_at, Option.some.injEq] at hq
      subst hq
      refine ⟨_, rfl, by simp [along], by simp [along], by simp [along],
        by simp [along, modify_nth_length], fun _ => ⟨by simp [along], ?_⟩,
        fun h => absurd List.nil_prefix h⟩
      simp only [along]
      rw [backup_step_wins]
      simp
    | cons j q =>
      simp only [get_at] at hq
      cases hc : nd.children[j]? with
      | none => simp [hc] at hq
      | some c =>
        simp only [hc] at hq
        by_cases hji : j = i
        · subst hji
          obtain ⟨y2, h1, h2, h3, h4, h5, h6, h7⟩ := ih c q y hq
          refine ⟨y2, ?_, h2, h3, h4, h5, fun h => h6 ?_, fun h => h7 ?_⟩
          · simp [along, get_at, modify_nth_get?, hc, h1]
          · exact (List.cons_prefix_cons.mp h).2
          · intro hp
            exact h (List.cons_prefix_cons.mpr ⟨rfl, hp⟩)
        · refine ⟨y, ?_, rfl, rfl, rfl, rfl, fun h => ?_, fun _ => ⟨rfl, rfl⟩⟩
          · simp [along, get_at, modify_nth_get?, hc, hji, hq]
          · exact absurd (List.cons_prefix_cons.mp h).1 hji

/-- The pass of `backup` creates no node. -/
theorem along_backup_get_at_inv (r : ℚ) : ∀ (P : List Nat) (nd : MCTSNode) (q : List Nat)
    (y2 : MCTSNode), get_at (along (backup_step r) (backup_step r) nd P) q = some y2 →
    ∃ y, get_at nd q = some y := by
  intro P
  induction P with
  | nil =>
    intro nd q y2 hq
    cases q with
    | nil => exact ⟨nd, rfl⟩
    | cons j q => exact ⟨y2, by simpa [along, get_at] using hq⟩
  | cons i P ih =>
    intro nd q y2 hq
    cases q with
    | nil => exact ⟨nd, rfl⟩
    | cons j q =>
      simp only [along, get_at, backup_step_children, MCTSNode.with_children_children,
        modify_nth_get?] at hq
      cases hc : nd.children[j]? with
      | none => simp [hc] at hq
      | some c =>
        by_cases hji : j = i
        · subst hji
          simp only [hc, if_true, Option.map_some'] at hq
          obtain ⟨y, hy⟩ := ih c q y2 hq
          exact ⟨y, by simp [get_at, hc, hy]⟩
        · simp only [hc, hji, if_false] at hq
          exact ⟨y2, by simp [get_at, hc, hq]⟩

/-! ## Expansion -/

theorem mem_untried_actions (nd : MCTSNode) (a : Int) :
    a ∈ untried_actions nd ↔
      a ∈ nd.state.legal_actions ∧ ∀ c ∈ nd.children, c.action_from_parent ≠ a := by
  unfold untried_actions
  simp [List.mem_filter]

theorem untried_actions_eq_nil (nd : MCTSNode) :
    untried_actions nd = [] ↔
      ∀ a ∈ nd.state.legal_actions, ∃ c ∈ nd.children, c.action_from_parent = a := by
  constructor
  · intro h a ha
    by_contra hno
    have : a ∈ untried_actions nd :=
      (mem_untried_actions nd a).mpr ⟨ha, fun c hc hca => hno ⟨c, hc, hca⟩⟩
    rw [h] at this
    simp at this
  · intro h
    apply List.eq_nil_iff_forall_not_mem.mpr
    intro a ha
    obtain ⟨hl, hn⟩ := (mem_untried_actions nd a).mp ha
    obtain ⟨c, hc, hca⟩ := h a hl
    exact hn c hc hca

theorem deref_update (root x : MCTSNode) (node : Ptr) (f : MCTSNode → MCTSNode)
    (hx : deref root node = some x) : deref (update root node f) node = some (f x) := by
  unfold deref at hx
  unfold deref update
  rw [get_at_modify_at, hx]
  rfl

theorem deref_update_child (root x c : MCTSNode) (node : Ptr) (f : MCTSNode → MCTSNode) (i : Nat)
    (hx : deref root node = some x) (hc : (f x).children[i]? = some c) :
    deref (update root node f) (i :: node) = some c :=
  deref_cons _ (f x) c node i (deref_update root x node f hx) hc

/-! ## One round, seen from the root -/

theorem tree_policy_selected_aux (m : MCTS) (root : MCTSNode) (n : Nat) :
    ∀ (nd : MCTSNode) (node : Ptr) (rng : Rng), sizeOf nd ≤ n → deref root node = some nd →
      ∃ root1 node1 rng1, tree_policy m root nd node rng = Except.ok (root1, node1, rng1) ∧
        Selected root root1 node1 := by
  induction n with
  | zero =>
    intro nd node rng hsz _
    cases nd with
    | mk a p w v s cs => simp only [MCTSNode.mk.sizeOf_spec] at hsz; omega
  | succ n ih =>
    intro nd node rng hsz hd
    rw [tree_policy]
    by_cases ht : nd.state.is_terminal = true
    · simp only [ht, if_true]
      exact ⟨root, node, rng, rfl, nd, node, hd, Or.inl ⟨rfl, rfl, Or.inl ht⟩⟩
    · simp only [ht, Bool.false_eq_true, if_false]
      have ht2 : nd.state.is_terminal = false := by simpa using ht
      by_cases hf : nd.is_fully_expanded = true
      · simp only [hf, Bool.not_true, Bool.false_eq_true, if_false]
        obtain ⟨j, c, hj, hc⟩ :=
          best_uct_child_some m nd (is_fully_expanded_children_ne_nil nd ht2 hf)
        have hlt := sizeOf_child_lt nd c j hc
        obtain ⟨root1, node1, rng1, hres, hg⟩ :=
          ih c (j :: node) rng (by omega) (deref_cons root nd c node j hd hc)
        refine ⟨root1, node1, rng1, ?_, hg⟩
        rw [hj]
        simp only []
        split
        · next hnone => rw [hc] at hnone; exact absurd hnone (by simp)
        · next c2 hsome =>
          rw [hc] at hsome
          cases hsome
          exact hres
      · simp only [hf, Bool.not_false, if_true]
        have hf2 : nd.is_fully_expanded = false := by simpa using hf
        rcases expand_cases root nd node rng with ⟨hu, he⟩ | ⟨act, rng1, hact, he⟩
        · exact ⟨root, node, rng, he, nd, node, hd,
            Or.inl ⟨rfl, rfl, Or.inr ⟨ht2, hf2, hu⟩⟩⟩
        · exact ⟨_, _, rng1, he, nd, node, hd, Or.inr ⟨ht2, act, hact, rfl, rfl⟩⟩

theorem tree_policy_selected (m : MCTS) (root : MCTSNode) (rng : Rng) :
    ∃ root1 node1 rng1, tree_policy m root root [] rng = Except.ok (root1, node1, rng1) ∧
      Selected root root1 node1 :=
  tree_policy_selected_aux m root (sizeOf root) root [] rng (le_refl _) rfl

theorem grow_end_eq (r : ℚ) (child x : MCTSNode) :
    along (backup_step r) (backup_step r) (x.push_child child) [x.children.length] =
      grow_end r child x := by
  simp only [along, grow_end, MCTSNode.push_child_children, MCTSNode.push_child]
  rw [MCTSNode.with_children_with_children]
  congr 2
  rw [MCTSNode.with_children_children]
  exact modify_nth_append_length (fun c => backup_step r c) x.children child

/-- A round of the loop that completes is a `Round` of the tree. -/
theorem iteration_round (m : MCTS) (fuel : Nat) (root : MCTSNode) (rng : Rng)
    (root2 : MCTSNode) (rng2 : Rng)
    (h : iteration m fuel root rng = Except.ok (root2, rng2)) :
    ∃ w, Round (reward_of w) root root2 := by
  obtain ⟨root1, node, rng1, w, htp, _, hb⟩ := iteration_spec m fuel root rng root2 rng2 h
  obtain ⟨r1, n1, g1, htp2, hsel⟩ := tree_policy_selected m root rng
  rw [htp] at htp2
  simp only [Except.ok.injEq, Prod.mk.injEq] at htp2
  obtain ⟨hr, hn, _⟩ := htp2
  subst hr hn
  refine ⟨w, ?_⟩
  obtain ⟨x, ptr, hx, ⟨h1, h2, h3⟩ | ⟨hnt, act, hact, h1, h2⟩⟩ := hsel
  · subst h1 h2
    rw [hb, backup_eq_along]
    rcases h3 with ht | ⟨hnt, hnf, hu⟩
    · exact ⟨_, x, hx, Or.inl ⟨ht, rfl⟩⟩
    · exact ⟨_, x, hx, Or.inr (Or.inl ⟨hnt, hnf, hu, rfl⟩)⟩
  · subst h1 h2
    refine ⟨ptr.reverse, x, hx, Or.inr (Or.inr ⟨hnt, act, hact, ?_⟩)⟩
    rw [hb, backup_eq_along, List.reverse_cons, along_append]
    unfold update
    have hm := along_modify_at (backup_step (reward_of w))
      (fun y => along (backup_step (reward_of w)) (backup_step (reward_of w)) y
        [x.children.length])
      (fun n => n.push_child (MCTSNode.new (x.state.after act) act)) root ptr.reverse []
    rw [List.append_nil] at hm
    rw [hm]
    apply along_congr_end _ _ _ root x ptr.reverse hx
    exact grow_end_eq _ _ x

/-! ## The shape of the tree is kept by a round -/

theorem allNodes_iff (P : MCTSNode → Prop) (nd : MCTSNode) :
    AllNodes P nd ↔ P nd ∧ ∀ c ∈ nd.children, AllNodes P c := by
  constructor
  · intro h
    refine ⟨h.self, ?_⟩
    intro c hc
    obtain ⟨i, hi, rfl⟩ := List.getElem_of_mem hc
    exact h.child (List.getElem?_eq_getElem hi)
  · rintro ⟨h0, hc⟩ q x hq
    cases q with
    | nil =>
      simp only [get_at, Option.some.injEq] at hq
      subst hq
      exact h0
    | cons j q =>
      simp only [get_at] at hq
      cases hj : nd.children[j]? with
      | none => simp [hj] at hq
      | some c =>
        simp only [hj] at hq
        exact hc c (List.getElem?_mem hj) q x hq

theorem mem_modify_nth (g : MCTSNode → MCTSNode) (l : List MCTSNode) (i : Nat) (c2 : MCTSNode)
    (h : c2 ∈ modify_nth g l i) : c2 ∈ l ∨ ∃ c, l[i]? = some c ∧ c2 = g c := by
  induction l generalizing i with
  | nil => simp [modify_nth] at h
  | cons c cs ih =>
    cases i with
    | zero =>
      simp only [modify_nth, List.mem_cons] at h
      rcases h with h | h
      · exact Or.inr ⟨c, by simp, h⟩
      · exact Or.inl (by simp [h])
    | succ i =>
      simp only [modify_nth, List.mem_cons] at h
      rcases h with h | h
      · exact Or.inl (by simp [h])
      · rcases ih i h with h1 | ⟨d, hd, h2⟩
        · exact Or.inl (by simp [h1])
        · exact Or.inr ⟨d, by simpa using hd, h2⟩

theorem sum_visits_modify_nth_eq (g : MCTSNode → MCTSNode) (l : List MCTSNode) (i : Nat)
    (c : MCTSNode) (hc : l[i]? = some c) (hg : (g c).visits = c.visits + 1) :
    ((modify_nth g l i).map MCTSNode.visits).sum = (l.map MCTSNode.visits).sum + 1 := by
  induction l generalizing i with
  | nil => simp at hc
  | cons d ds ih =>
    cases i with
    | zero =>
      simp only [List.getElem?_cons_zero, Option.some.injEq] at hc
      subst hc
      simp only [modify_nth, List.map_cons, List.sum_cons, hg]
      omega
    | succ i =>
      have := ih i (by simpa using hc)
      simp only [modify_nth, List.map_cons, List.sum_cons]
      omega

theorem along_field {β : Type} (g : MCTSNode → β) (f h : MCTSNode → MCTSNode)
    (hf : ∀ n, g (f n) = g n) (hw : ∀ n cs, g (n.with_children cs) = g n)
    (hh : ∀ n, g (h n) = g n) (nd : MCTSNode) (p : List Nat) : g (along f h nd p) = g nd := by
  cases p with
  | nil => exact hh nd
  | cons i p => simp only [along, hf, hw]

theorem along_visits (r : ℚ) (h : MCTSNode → MCTSNode) (hh : ∀ n, (h n).visits = n.visits + 1)
    (nd : MCTSNode) (p : List Nat) : (along (backup_step r) h nd p).visits = nd.visits + 1 := by
  cases p with
  | nil => exact hh nd
  | cons i p => simp [along]

@[simp] theorem grow_end_state (r : ℚ) (child y : MCTSNode) :
    (grow_end r child y).state = y.state := by simp [grow_end]

@[simp] theorem grow_end_action (r : ℚ) (child y : MCTSNode) :
    (grow_end r child y).action_from_parent = y.action_from_parent := by simp [grow_end]

@[simp] theorem grow_end_visits (r : ℚ) (child y : MCTSNode) :
    (grow_end r child y).visits = y.visits + 1 := by simp [grow_end]

@[simp] theorem grow_end_children (r : ℚ) (child y : MCTSNode) :
    (grow_end r child y).children = y.children ++ [backup_step r child] := by simp [grow_end]

theorem TicTacToeState.legal_actions_nodup (s : TicTacToeState) : s.legal_actions.Nodup := by
  unfold TicTacToeState.legal_actions
  apply List.Nodup.map
  · intro i j hij
    apply Fin.ext
    simp only at hij
    omega
  · exact List.Nodup.filter _ (List.nodup_finRange 9)

/-- The state of the node and the actions and states of its children decide
`ChildrenOk`. -/
theorem childrenOk_congr (x y : MCTSNode) (hs : x.state = y.state)
    (hc : x.children.map (fun c => (c.action_from_parent, c.state)) =
      y.children.map (fun c => (c.action_from_parent, c.state)))
    (hy : ChildrenOk y) : ChildrenOk x := by
  obtain ⟨h1, h2⟩ := hy
  have ha : x.children.map MCTSNode.action_from_parent =
      y.children.map MCTSNode.action_from_parent := by
    have := congrArg (List.map Prod.fst) hc
    simpa [List.map_map, Function.comp_def] using this
  refine ⟨by rw [ha]; exact h1, ?_⟩
  intro c hcx
  have hm : (c.action_from_parent, c.state) ∈
      y.children.map (fun c => (c.action_from_parent, c.state)) := by
    rw [← hc]
    exact List.mem_map.mpr ⟨c, hcx, rfl⟩
  obtain ⟨d, hd, hde⟩ := List.mem_map.mp hm
  simp only [Prod.mk.injEq] at hde
  obtain ⟨h3, h4⟩ := h2 d hd
  rw [hs, ← hde.1, ← hde.2]
  exact ⟨h3, h4⟩

/-- With well-formed children, a node with nothing left to try is fully expanded. -/
theorem childrenOk_next_state (x : MCTSNode) (hx : ChildrenOk x) :
    ∀ c ∈ x.children, c.action_from_parent ∈ x.state.legal_actions ∧
      x.state.next_state c.action_from_parent = Except.ok c.state := by
  intro c hc
  obtain ⟨h1, h2⟩ := hx.2 c hc
  exact ⟨h1, by rw [TicTacToeState.next_state_of_mem _ _ h1, h2]⟩

theorem childrenOk_fully_expanded (x : MCTSNode) (hx : ChildrenOk x) :
    x.is_fully_expanded = true ↔
      ∀ a ∈ x.state.legal_actions, ∃ c ∈ x.children, c.action_from_parent = a := by
  obtain ⟨hnd, hleg⟩ := hx
  have hsub : x.children.map MCTSNode.action_from_parent ⊆ x.state.legal_actions := by
    intro a ha
    obtain ⟨c, hc, rfl⟩ := List.mem_map.mp ha
    exact (hleg c hc).1
  have hlen : (x.children.map MCTSNode.action_from_parent).length = x.children.length := by simp
  unfold MCTSNode.is_fully_expanded
  simp only [decide_eq_true_eq]
  constructor
  · intro h
    have hl : x.state.legal_actions.length ≤
        (x.children.map MCTSNode.action_from_parent).length := by
      rw [hlen]
      exact_mod_cast h.ge
    have hperm := (List.subperm_of_subset hnd hsub).perm_of_length_le hl
    intro a ha
    have := hperm.mem_iff.mpr ha
    obtain ⟨c, hc, hca⟩ := List.mem_map.mp this
    exact ⟨c, hc, hca⟩
  · intro h
    have hsub2 : x.state.legal_actions ⊆ x.children.map MCTSNode.action_from_parent := by
      intro a ha
      obtain ⟨c, hc, hca⟩ := h a ha
      exact List.mem_map.mpr ⟨c, hc, hca⟩
    have h1 := (List.subperm_of_subset hnd hsub).length_le
    have h2 := (List.subperm_of_subset x.state.legal_actions_nodup hsub2).length_le
    rw [hlen] at h1 h2
    have : x.children.length = x.state.legal_actions.length := le_antisymm h1 h2
    exact_mod_cast this

theorem childrenOk_backup_step (r : ℚ) (n : MCTSNode) (h : ChildrenOk n) :
    ChildrenOk (backup_step r n) :=
  childrenOk_congr _ n (by simp) (by simp) h

theorem childrenOk_of_leaf (x : MCTSNode) (h : x.children = []) : ChildrenOk x := by
  simp [ChildrenOk, h]

theorem allNodes_of_leaf (P : MCTSNode → Prop) (x : MCTSNode) (h : x.children = [])
    (hx : P x) : AllNodes P x := by
  rw [allNodes_iff]
  exact ⟨hx, by simp [h]⟩

theorem allNodes_childrenOk_grow_end (r : ℚ) (x : MCTSNode) (act : Int)
    (hact : act ∈ untried_actions x) (hx : AllNodes ChildrenOk x) :
    AllNodes ChildrenOk (grow_end r (MCTSNode.new (x.state.after act) act) x) := by
  obtain ⟨hleg, hnew⟩ := (mem_untried_actions x act).mp hact
  obtain ⟨⟨hnd, hch⟩, hsub⟩ := (allNodes_iff ChildrenOk x).mp hx
  rw [allNodes_iff]
  constructor
  · constructor
    · simp only [grow_end_children, List.map_append, List.map_cons, List.map_nil,
        backup_step_action, MCTSNode.new_action]
      apply List.Nodup.append hnd (List.nodup_singleton act)
      intro a ha hb
      simp only [List.mem_singleton] at hb
      subst hb
      obtain ⟨c, hc, hca⟩ := List.mem_map.mp ha
      exact hnew c hc hca
    · intro c hc
      simp only [grow_end_children, List.mem_append, List.mem_singleton] at hc
      rcases hc with hc | hc
      · simpa using hch c hc
      · subst hc
        simpa using hleg
  · intro c hc
    simp only [grow_end_children, List.mem_append, List.mem_singleton] at hc
    rcases hc with hc | hc
    · exact hsub c hc
    · subst hc
      exact allNodes_of_leaf _ _ (by simp) (childrenOk_of_leaf _ (by simp))

theorem along_childrenOk (f h : MCTSNode → MCTSNode)
    (hfs : ∀ n, (f n).state = n.state)
    (hfa : ∀ n, (f n).action_from_parent = n.action_from_parent)
    (hfc : ∀ n, (f n).children = n.children)
    (hs : ∀ n, (h n).state = n.state)
    (ha : ∀ n, (h n).action_from_parent = n.action_from_parent) :
    ∀ (p : List Nat) (nd x : MCTSNode), get_at nd p = some x → AllNodes ChildrenOk nd →
      (AllNodes ChildrenOk x → AllNodes ChildrenOk (h x)) →
      AllNodes ChildrenOk (along f h nd p) := by
  intro p
  induction p with
  | nil =>
    intro nd x hx hnd hend
    simp only [get_at, Option.some.injEq] at hx
    subst hx
    exact hend hnd
  | cons i p ih =>
    intro nd x hx hnd hend
    simp only [get_at] at hx
    cases hc : nd.children[i]? with
    | none => simp [hc] at hx
    | some c =>
      simp only [hc] at hx
      obtain ⟨h0, hsub⟩ := (allNodes_iff ChildrenOk nd).mp hnd
      rw [allNodes_iff]
      constructor
      · apply childrenOk_congr _ nd (by simp [along, hfs]) _ h0
        simp only [along, hfc, MCTSNode.with_children_children]
        apply modify_nth_map
        intro d
        rw [along_field MCTSNode.action_from_parent f h hfa
            (fun _ _ => MCTSNode.with_children_action _ _) ha,
          along_field MCTSNode.state f h hfs
            (fun _ _ => MCTSNode.with_children_state _ _) hs]
      · intro c2 hc2
        simp only [along, hfc, MCTSNode.with_children_children] at hc2
        rcases mem_modify_nth _ _ _ _ hc2 with h1 | ⟨d, hd, h2⟩
        · exact hsub c2 h1
        · rw [hc] at hd
          cases hd
          rw [h2]
          exact ih c x hx (hsub c (List.getElem?_mem hc)) hend

theorem subOk_iff (c : MCTSNode) : SubOk c ↔ TreeOk 1 c ∧ 1 ≤ c.visits := by
  unfold SubOk TreeOk
  rw [allNodes_iff]
  constructor
  · rintro ⟨⟨h1, h2⟩, h3⟩
    exact ⟨⟨h1, h3⟩, h2⟩
  · rintro ⟨⟨h1, h3⟩, h2⟩
    exact ⟨⟨h1, h2⟩, h3⟩

theorem treeOk_backup_step_terminal (r : ℚ) (k : Int) (x : MCTSNode)
    (ht : x.state.is_terminal = true) (hx : TreeOk k x) : TreeOk k (backup_step r x) := by
  obtain ⟨⟨h1, _⟩, h3⟩ := hx
  refine ⟨⟨fun _ => by simpa using h1 ht, fun hnt => ?_⟩, by simpa using h3⟩
  simp only [backup_step_state] at hnt
  rw [ht] at hnt
  exact absurd hnt (by simp)

theorem treeOk_grow_end (r : ℚ) (k : Int) (x : MCTSNode) (st : TicTacToeState) (act : Int)
    (hnt : x.state.is_terminal = false) (hx : TreeOk k x) :
    TreeOk k (grow_end r (MCTSNode.new st act) x) := by
  obtain ⟨⟨_, h2⟩, h3⟩ := hx
  refine ⟨⟨fun ht => ?_, fun _ => ?_⟩, ?_⟩
  · simp only [grow_end_state] at ht
    rw [hnt] at ht
    exact absurd ht (by simp)
  · have := h2 hnt
    simp only [grow_end_visits, child_visits, grow_end_children, List.map_append, List.map_cons,
      List.map_nil, List.sum_append, List.sum_cons, List.sum_nil, backup_step_visits,
      MCTSNode.new_visits]
    simp only [child_visits] at this
    omega
  · intro c hc
    simp only [grow_end_children, List.mem_append, List.mem_singleton] at hc
    rcases hc with hc | hc
    · exact h3 c hc
    · subst hc
      unfold SubOk
      refine allNodes_of_leaf _ _ (by simp) ⟨⟨fun _ => by simp, fun _ => ?_⟩, by simp⟩
      simp [child_visits]

theorem along_treeOk (r : ℚ) (h : MCTSNode → MCTSNode)
    (hv : ∀ n, (h n).visits = n.visits + 1) :
    ∀ (p : List Nat) (nd x : MCTSNode) (k : Int), get_at nd p = some x → TreeOk k nd →
      (∀ j, TreeOk j x → TreeOk j (h x)) → TreeOk k (along (backup_step r) h nd p) := by
  intro p
  induction p with
  | nil =>
    intro nd x k hx hnd hend
    simp only [get_at, Option.some.injEq] at hx
    subst hx
    exact hend k hnd
  | cons i p ih =>
    intro nd x k hx hnd hend
    simp only [get_at] at hx
    cases hc : nd.children[i]? with
    | none => simp [hc] at hx
    | some c =>
      simp only [hc] at hx
      obtain ⟨⟨h1, h2⟩, h3⟩ := hnd
      have hnt : nd.state.is_terminal = false := by
        by_contra hcon
        have ht : nd.state.is_terminal = true := by simpa using hcon
        have := h1 ht
        rw [this] at hc
        simp at hc
      have hcv := along_visits r h hv c p
      refine ⟨⟨fun ht => ?_, fun _ => ?_⟩, ?_⟩
      · simp only [along, backup_step_state, MCTSNode.with_children_state] at ht
        rw [hnt] at ht
        exact absurd ht (by simp)
      · have hsum := sum_visits_modify_nth_eq (fun d => along (backup_step r) h d p)
          nd.children i c hc hcv
        have := h2 hnt
        simp only [along, backup_step_visits, MCTSNode.with_children_visits, child_visits,
          backup_step_children, MCTSNode.with_children_children]
        simp only [child_visits] at this
        omega
      · intro c2 hc2
        simp only [along, backup_step_children, MCTSNode.with_children_children] at hc2
        rcases mem_modify_nth _ _ _ _ hc2 with hm | ⟨d, hd, hm⟩
        · exact h3 c2 hm
        · rw [hc] at hd
          cases hd
          rw [hm]
          obtain ⟨hc1, hc2⟩ := (subOk_iff c).mp (h3 c (List.getElem?_mem hc))
          exact (subOk_iff _).mpr ⟨ih c x 1 hx hc1 hend, by rw [hcv]; omega⟩

/-- A round keeps the shape of the tree and the conservation of visits. -/
theorem round_keeps_shape (r : ℚ) (k : Int) (root root2 : MCTSNode)
    (hc : AllNodes ChildrenOk root) (ht : TreeOk k root) (h : Round r root root2) :
    AllNodes ChildrenOk root2 ∧ TreeOk k root2 := by
  obtain ⟨p, x, hx, ⟨hterm, h2⟩ | ⟨hnt, hnf, hu, _⟩ | ⟨hnt, act, hact, h2⟩⟩ := h
  · rw [h2]
    exact ⟨along_childrenOk _ _ (backup_step_state r) (backup_step_action r)
        (backup_step_children r) (backup_step_state r) (backup_step_action r) p root x hx hc
        (allNodes_backup_step ChildrenOk r (childrenOk_backup_step r) x),
      along_treeOk r _ (backup_step_visits r) p root x k hx ht
        (fun j => treeOk_backup_step_terminal r j x hterm)⟩
  · have hcx : ChildrenOk x := hc p x hx
    have := (childrenOk_fully_expanded x hcx).mpr ((untried_actions_eq_nil x).mp hu)
    rw [hnf] at this
    exact absurd this (by simp)
  · rw [h2]
    exact ⟨along_childrenOk _ _ (backup_step_state r) (backup_step_action r)
        (backup_step_children r) (fun n => grow_end_state r _ n)
        (fun n => grow_end_action r _ n) p root x hx hc
        (allNodes_childrenOk_grow_end r x act hact),
      along_treeOk r _ (fun n => grow_end_visits r _ n) p root x k hx ht (fun j => treeOk_grow_end r j x _ act hnt)⟩

/-- After any number of rounds on a fresh root the tree has well-formed children
everywhere and conserves visits. -/
theorem search_loop_shape (m : MCTS) (fuel : Nat) (n : Nat) (s : TicTacToeState) (rng : Rng)
    (t : MCTSNode) (g : Rng) (h : search_loop m fuel n (root_node s) rng = Except.ok (t, g)) :
    AllNodes ChildrenOk t ∧ TreeOk 0 t := by
  refine search_loop_preserves m fuel (fun r => AllNodes ChildrenOk r ∧ TreeOk 0 r) ?_ n
    (root_node s) rng t g ⟨?_, ?_⟩ h
  · intro root rng1 root2 rng2 h0 hi
    obtain ⟨w, hr⟩ := iteration_round m fuel root rng1 root2 rng2 hi
    exact round_keeps_shape _ 0 root root2 h0.1 h0.2 hr
  · exact allNodes_of_leaf _ _ rfl (childrenOk_of_leaf _ rfl)
  · refine ⟨⟨fun _ => rfl, fun _ => ?_⟩, ?_⟩
    · simp [root_node, child_visits]
    · intro c hc
      simp [root_node] at hc


theorem modify_at_eq_along (g : MCTSNode → MCTSNode) (nd : MCTSNode) (p : List Nat) :
    modify_at g nd p = along (fun n => n) g nd p := by
  induction p generalizing nd with
  | nil => rfl
  | cons i p ih =>
    simp only [modify_at, along]
    congr 1
    exact modify_nth_congr _ _ _ _ (fun c _ => ih c)

theorem allNodes_childrenOk_push (x : MCTSNode) (act : Int)
    (hact : act ∈ untried_actions x) (hx : AllNodes ChildrenOk x) :
    AllNodes ChildrenOk (x.push_child (MCTSNode.new (x.state.after act) act)) := by
  obtain ⟨hleg, hnew⟩ := (mem_untried_actions x act).mp hact
  obtain ⟨⟨hnd, hch⟩, hsub⟩ := (allNodes_iff ChildrenOk x).mp hx
  rw [allNodes_iff]
  constructor
  · constructor
    · simp only [MCTSNode.push_child_children, List.map_append, List.map_cons, List.map_nil,
        MCTSNode.new_action]
      apply List.Nodup.append hnd (List.nodup_singleton act)
      intro a ha hb
      simp only [List.mem_singleton] at hb
      subst hb
      obtain ⟨c, hc, hca⟩ := List.mem_map.mp ha
      exact hnew c hc hca
    · intro c hc
      simp only [MCTSNode.push_child_children, List.mem_append, List.mem_singleton] at hc
      rcases hc with hc | hc
      · simpa using hch c hc
      · subst hc
        simpa using hleg
  · intro c hc
    simp only [MCTSNode.push_child_children, List.mem_append, List.mem_singleton] at hc
    rcases hc with hc | hc
    · exact hsub c hc
    · subst hc
      exact allNodes_of_leaf _ _ (by simp) (childrenOk_of_leaf _ (by simp))

/-- The tree that `tree_policy` hands to the rollout has well-formed children too. -/
theorem tree_policy_childrenOk (m : MCTS) (root : MCTSNode) (rng : Rng)
    (root1 : MCTSNode) (node : Ptr) (rng1 : Rng) (hc : AllNodes ChildrenOk root)
    (h : tree_policy m root root [] rng = Except.ok (root1, node, rng1)) :
    AllNodes ChildrenOk root1 := by
  obtain ⟨r1, n1, g1, htp, hsel⟩ := tree_policy_selected m root rng
  rw [h] at htp
  simp only [Except.ok.injEq, Prod.mk.injEq] at htp
  obtain ⟨hr, _, _⟩ := htp
  subst hr
  obtain ⟨x, ptr, hx, ⟨h1, _, _⟩ | ⟨_, act, hact, h1, _⟩⟩ := hsel
  · rw [h1]
    exact hc
  · rw [h1]
    unfold update
    rw [modify_at_eq_along]
    exact along_childrenOk _ _ (fun _ => rfl) (fun _ => rfl) (fun _ => rfl)
      (fun n => MCTSNode.push_child_state n _) (fun n => MCTSNode.push_child_action n _)
      ptr.reverse root x hx hc (allNodes_childrenOk_push x act hact)

theorem treeOk_nonroot (k : Int) (t x : MCTSNode) (j : Nat) (q : List Nat) (ht : TreeOk k t)
    (hx : get_at t (j :: q) = some x) : Conserved 1 x ∧ 1 ≤ x.visits := by
  simp only [get_at] at hx
  cases hc : t.children[j]? with
  | none => simp [hc] at hx
  | some c =>
    simp only [hc] at hx
    exact ht.2 c (List.getElem?_mem hc) q x hx

theorem treeOk_deref_nonroot (k : Int) (t x : MCTSNode) (ptr : Ptr) (ht : TreeOk k t)
    (hx : deref t ptr = some x) (hne : ptr ≠ []) : Conserved 1 x ∧ 1 ≤ x.visits := by
  unfold deref at hx
  cases hrev : ptr.reverse with
  | nil => exact absurd (by simpa using hrev) hne
  | cons j q =>
    rw [hrev] at hx
    exact treeOk_nonroot k t x j q ht hx

theorem sum_visits_pos (l : List MCTSNode) (hne : l ≠ []) (h : ∀ c ∈ l, 1 ≤ c.visits) :
    1 ≤ (l.map MCTSNode.visits).sum := by
  induction l with
  | nil => exact absurd rfl hne
  | cons c cs ih =>
    have h1 := h c (by simp)
    simp only [List.map_cons, List.sum_cons]
    by_cases hcs : cs = []
    · simp [hcs, h1]
    · have := ih hcs (fun d hd => h d (by simp [hd]))
      omega

/-- In a tree that conserves visits, a node with a non-terminal state that is fully
expanded has a child, has been visited, and so has each of its children. -/
theorem treeOk_selection_ready (t x : MCTSNode) (ptr : Ptr) (ht : TreeOk 0 t)
    (hx : deref t ptr = some x) (hnt : x.state.is_terminal = false)
    (hf : x.is_fully_expanded = true) :
    x.children ≠ [] ∧ 1 ≤ x.visits ∧ ∀ c ∈ x.children, 1 ≤ c.visits := by
  have hne := is_fully_expanded_children_ne_nil x hnt hf
  have hch : ∀ c ∈ x.children, 1 ≤ c.visits := by
    intro c hc
    obtain ⟨i, hi, rfl⟩ := List.getElem_of_mem hc
    have hd := deref_cons t x _ ptr i hx (List.getElem?_eq_getElem hi)
    exact (treeOk_deref_nonroot 0 t _ (i :: ptr) ht hd (by simp)).2
  have hsum := sum_visits_pos x.children hne hch
  refine ⟨hne, ?_, hch⟩
  by_cases hp : ptr = []
  · subst hp
    simp only [deref, List.reverse_nil, get_at, Option.some.injEq] at hx
    subst hx
    have := ht.1.2 hnt
    simp only [child_visits] at this
    omega
  · have := (treeOk_deref_nonroot 0 t x ptr ht hx hp).1.2 hnt
    simp only [child_visits] at this
    omega

/-! ## The checked properties, continued -/

/-- C11: a state whose nine cells are all occupied (each 1 or -1) and in which none
of the eight lines is held by one player has `winner() = 0`, is terminal, and
`default_policy` on it returns the reward 0.5 without consuming a draw. -/
theorem draw_detected (s : TicTacToeState) (fuel : Nat) (rng : Rng)
    (hfull : ∀ i, s.board i = 1 ∨ s.board i = -1)
    (hline : ∀ ln ∈ TicTacToeState.lines,
      ¬ (s.board ln.1 = s.board ln.2.1 ∧ s.board ln.2.1 = s.board ln.2.2)) :
    s.winner = 0 ∧ s.is_terminal = true ∧
      default_policy fuel (GameState.tictactoe s) rng = Except.ok (1 / 2, rng) := by
  have hw : s.winner = 0 := by
    apply winner_loop_eq_zero
    intro ln hln
    have h := hline ln hln
    rcases hfull ln.1 with h1 | h1 <;> rcases hfull ln.2.1 with h2 | h2 <;>
      rcases hfull ln.2.2 with h3 | h3 <;> rw [h1, h2] at h <;> rw [h3] at h <;>
      rw [h1, h2, h3] <;> simp at h ⊢
  have ht : s.is_terminal = true := by
    apply (TicTacToeState.is_terminal_iff s).mpr
    right
    apply (TicTacToeState.legal_actions_eq_nil s).mpr
    intro i
    rcases hfull i with h | h <;> rw [h] <;> decide
  refine ⟨hw, ht, ?_⟩
  rw [default_policy_tictactoe, rollout_terminal fuel s rng ht]
  simp only [hw, reward_of]
  norm_num

set_option maxRecDepth 8000 in
/-- Witness for C11: a full board without a line. -/
theorem draw_detected_witness :
    drawn_state.winner = 0 ∧ drawn_state.is_terminal = true ∧
      default_policy 9 (GameState.tictactoe drawn_state) sample_rng =
        Except.ok (1 / 2, sample_rng) :=
  draw_detected drawn_state 9 sample_rng (by decide) (by decide)

/-- C12, as stated, fails: the empty board with the player `0` to move has nine empty
cells, and the rollout loop on it is still running after any number of rounds,
whatever the random choices: each move stores a `0` and leaves the board empty. -/
theorem rollout_player_zero_never_ends :
    stuck_state.legal_actions.length = 9 ∧ stuck_state.is_terminal = false ∧
    (∀ a, a ∈ stuck_state.legal_actions →
      stuck_state.next_state a = Except.ok stuck_state) ∧
    (∀ fuel rng, rollout fuel stuck_state rng = Except.error Fault.out_of_fuel) :=
  ⟨by decide, by decide,
    fun a ha => by rw [TicTacToeState.next_state_of_mem _ a ha, stuck_state_after],
    fun fuel rng => rollout_stuck fuel rng⟩

/-- C12, amended: from a state with player 1 or -1 and `k` empty cells (its `k` legal
actions) the rollout loop ends in a terminal state within `k` rounds, each of which
applies `next_state` once to a legal action.  Every play of legal moves from the empty
board has at most 9 moves, can be continued as long as its last state is not terminal,
and is in a terminal state after 9 moves; and `winner()` of any state is one of 1, -1,
0. -/
theorem rollout_and_play_terminate (s : TicTacToeState) (rng : Rng)
    (hp : s.player = 1 ∨ s.player = -1) :
    (∃ t rng1 moves, rollout s.legal_actions.length s rng = Except.ok (t, rng1) ∧
      play_moves s moves = some t ∧ t.is_terminal = true ∧
      moves.length ≤ s.legal_actions.length) ∧
    (∀ moves t, play_moves TicTacToeState.init moves = some t →
      moves.length ≤ 9 ∧ (moves.length = 9 → t.is_terminal = true) ∧
      (t.is_terminal = false →
        ∃ a t2, a ∈ t.legal_actions ∧ play_moves TicTacToeState.init (moves ++ [a]) = some t2) ∧
      (t.winner = 1 ∨ t.winner = -1 ∨ t.winner = 0)) ∧
    (∀ t : TicTacToeState, t.winner = 1 ∨ t.winner = -1 ∨ t.winner = 0) := by
  refine ⟨rollout_plays _ s rng (player_pm_ne_zero s hp) (le_refl _), ?_,
    fun t => t.winner_range⟩
  intro moves t hplay
  have hlen := (play_moves_length TicTacToeState.init t moves (by decide) hplay).1
  have h9 : TicTacToeState.init.legal_actions.length = 9 := by decide
  refine ⟨by omega, ?_, ?_, t.winner_range⟩
  · intro hm
    apply (TicTacToeState.is_terminal_iff t).mpr
    right
    exact List.length_eq_zero.mp (by omega)
  · intro hnt
    have hne := TicTacToeState.legal_actions_ne_nil t hnt
    obtain ⟨a, ha⟩ := List.exists_mem_of_ne_nil _ hne
    refine ⟨a, t.after a, ha, ?_⟩
    rw [play_moves_append, hplay]
    simp [play_moves_cons, play_moves_nil, hnt, ha]

/-- Witness for C12, amended: the empty board. -/
theorem rollout_and_play_terminate_witness :
    (∃ t rng1 moves, rollout TicTacToeState.init.legal_actions.length TicTacToeState.init
        sample_rng = Except.ok (t, rng1) ∧
      play_moves TicTacToeState.init moves = some t ∧ t.is_terminal = true ∧
      moves.length ≤ TicTacToeState.init.legal_actions.length) ∧
    (∀ moves t, play_moves TicTacToeState.init moves = some t →
      moves.length ≤ 9 ∧ (moves.length = 9 → t.is_terminal = true) ∧
      (t.is_terminal = false →
        ∃ a t2, a ∈ t.legal_actions ∧ play_moves TicTacToeState.init (moves ++ [a]) = some t2) ∧
      (t.winner = 1 ∨ t.winner = -1 ∨ t.winner = 0)) ∧
    (∀ t : TicTacToeState, t.winner = 1 ∨ t.winner = -1 ∨ t.winner = 0) :=
  rollout_and_play_terminate TicTacToeState.init sample_rng (by decide)

/-- C16, as stated, fails: on the empty board with the player `0` to move
`default_policy` reaches no terminal state and returns no reward, whatever the bound
given to its loop and whatever the random choices; and on a state of the pile game it
raises the error of `clone_state`. -/
theorem default_policy_no_reward :
    stuck_state.is_terminal = false ∧
    (∀ fuel rng, default_policy fuel (GameState.tictactoe stuck_state) rng =
      Except.error Fault.out_of_fuel) ∧
    (∀ fuel rng, default_policy fuel (GameState.other (pile_game 1 1)) rng =
      Except.error Fault.clone_unsupported) :=
  ⟨by decide, fun fuel rng => by rw [default_policy_tictactoe, rollout_stuck],
    fun _ _ => rfl⟩

/-- C16, amended: `default_policy` on a `TicTacToeState` with player 1 or -1 plays legal actions from the
copy of the state until a terminal state `t` is reached (no move at all when the state
is terminal already) and returns 1 if `t.winner()` is 1, 0 if it is -1 and 1/2 if it
is 0.  The reward is read off the final board alone: the player to move plays no part
in it.  (`default_policy` works on its own copy; the argument is a value and stays as
it is.) -/
theorem default_policy_reward (s : TicTacToeState) (fuel : Nat) (rng : Rng)
    (hp : s.player = 1 ∨ s.player = -1) (hfuel : 9 ≤ fuel) :
    ∃ t rng1 moves reward,
      default_policy fuel (GameState.tictactoe s) rng = Except.ok (reward, rng1) ∧
      rollout fuel s rng = Except.ok (t, rng1) ∧
      play_moves s moves = some t ∧ t.is_terminal = true ∧
      (s.is_terminal = true → t = s ∧ moves = []) ∧
      (t.winner = 1 → reward = 1) ∧ (t.winner = -1 → reward = 0) ∧
      (t.winner = 0 → reward = 1 / 2) ∧
      (t.winner = 1 ∨ t.winner = -1 ∨ t.winner = 0) ∧
      (∀ p : Int, reward_of (TicTacToeState.winner ⟨t.board, p⟩) = reward) := by
  have hrew : ∀ t : TicTacToeState,
      (t.winner = 1 → reward_of t.winner = 1) ∧ (t.winner = -1 → reward_of t.winner = 0) ∧
      (t.winner = 0 → reward_of t.winner = 1 / 2) := by
    intro t
    refine ⟨fun h => by simp [reward_of, h], fun h => by simp [reward_of, h],
      fun h => by simp [reward_of, h]⟩
  by_cases ht : s.is_terminal = true
  · refine ⟨s, rng, [], reward_of s.winner, ?_, rollout_terminal fuel s rng ht, rfl, ht,
      fun _ => ⟨rfl, rfl⟩, (hrew s).1, (hrew s).2.1, (hrew s).2.2, s.winner_range, fun p => rfl⟩
    rw [default_policy_tictactoe, rollout_terminal fuel s rng ht]
  · obtain ⟨t, rng1, moves, hr, hplay, hterm, _⟩ := rollout_plays fuel s rng
      (player_pm_ne_zero s hp) (le_trans (TicTacToeState.legal_actions_length_le s) hfuel)
    refine ⟨t, rng1, moves, reward_of t.winner, ?_, hr, hplay, hterm,
      fun h => absurd h ht, (hrew t).1, (hrew t).2.1, (hrew t).2.2, t.winner_range, fun p => rfl⟩
    rw [default_policy_tictactoe, hr]

/-- Witness for C16, amended: the empty board. -/
theorem default_policy_reward_witness :
    ∃ t rng1 moves reward,
      default_policy 9 (GameState.tictactoe TicTacToeState.init) sample_rng =
        Except.ok (reward, rng1) ∧
      rollout 9 TicTacToeState.init sample_rng = Except.ok (t, rng1) ∧
      play_moves TicTacToeState.init moves = some t ∧ t.is_terminal = true ∧
      (TicTacToeState.init.is_terminal = true → t = TicTacToeState.init ∧ moves = []) ∧
      (t.winner = 1 → reward = 1) ∧ (t.winner = -1 → reward = 0) ∧
      (t.winner = 0 → reward = 1 / 2) ∧
      (t.winner = 1 ∨ t.winner = -1 ∨ t.winner = 0) ∧
      (∀ p : Int, reward_of (TicTacToeState.winner ⟨t.board, p⟩) = reward) :=
  default_policy_reward TicTacToeState.init 9 sample_rng (by decide) (by decide)

/-- C13: two runs of `search` on the same state with the same iteration count and
exploration constant, fed by generators that produce the same sequence of draws,
return the same result, and their loops end with the same tree (same shape, same
visit count and win accumulator at every node) after any number of rounds. -/
theorem search_deterministic (m : MCTS) (fuel : Nat) (gs : GameState) (a b : Rng)
    (h : same_stream a b) :
    search m fuel gs a = search m fuel gs b ∧
    ∀ (s : TicTacToeState) (n : Nat),
      (∃ e, search_loop m fuel n (root_node s) a = Except.error e ∧
        search_loop m fuel n (root_node s) b = Except.error e) ∨
      (∃ t a1 b1, search_loop m fuel n (root_node s) a = Except.ok (t, a1) ∧
        search_loop m fuel n (root_node s) b = Except.ok (t, b1) ∧ same_stream a1 b1) := by
  constructor
  · unfold search
    cases first_root gs with
    | error e => rfl
    | ok u =>
      cases clone_state gs with
      | error e => rfl
      | ok s =>
        rcases search_loop_same m fuel m.iterations_.toNat (root_node s) a b h with
          ⟨e, h1, h2⟩ | ⟨t, a1, b1, h1, h2, _⟩
        · simp only [h1, h2]
        · simp only [h1, h2]
  · intro s n
    exact search_loop_same m fuel n (root_node s) a b h

/-- Witness for C13: the sample generator and a generator that has already produced
three other draws. -/
theorem search_deterministic_witness :
    search sample_engine 9 (GameState.other (checked_game TicTacToeState.init)) sample_rng =
      search sample_engine 9 (GameState.other (checked_game TicTacToeState.init))
        shifted_rng ∧
    ∀ (s : TicTacToeState) (n : Nat),
      (∃ e, search_loop sample_engine 9 n (root_node s) sample_rng = Except.error e ∧
        search_loop sample_engine 9 n (root_node s) shifted_rng = Except.error e) ∨
      (∃ t a1 b1, search_loop sample_engine 9 n (root_node s) sample_rng = Except.ok (t, a1) ∧
        search_loop sample_engine 9 n (root_node s) shifted_rng = Except.ok (t, b1) ∧
        same_stream a1 b1) :=
  search_deterministic sample_engine 9 (GameState.other (checked_game TicTacToeState.init))
    sample_rng shifted_rng (by intro i; simp [sample_rng, shifted_rng])

/-- C17: `backup(x, r)` on a node `x` of a tree adds exactly one visit and exactly `r`
to `wins` at `x` and at each of its ancestors up to and including the root (the nodes
whose pointer is the pointer of `x` or one of its iterated parents), and leaves `visits`
and `wins` of every other node as they are; every node stays at its place with its
action, its player, its state and the number of its children, and no node is added.
This holds for every reward, in particular for 0, 1/2 and 1. -/
theorem backup_frame (r : ℚ) (root x : MCTSNode) (node : Ptr)
    (_hx : deref root node = some x) :
    (∀ ptr y, deref root ptr = some y →
      ∃ y2, deref (backup r root node) ptr = some y2 ∧
        y2.action_from_parent = y.action_from_parent ∧
        y2.player_to_move = y.player_to_move ∧ y2.state = y.state ∧
        y2.children.length = y.children.length ∧
        (ptr <:+ node → y2.visits = y.visits + 1 ∧ y2.wins = y.wins + r) ∧
        (¬ ptr <:+ node → y2.visits = y.visits ∧ y2.wins = y.wins)) ∧
    (∀ ptr y2, deref (backup r root node) ptr = some y2 → ∃ y, deref root ptr = some y) := by
  constructor
  · intro ptr y hy
    unfold deref at hy
    obtain ⟨y2, h1, h2, h3, h4, h5, h6, h7⟩ := along_backup_get_at r node.reverse root _ y hy
    refine ⟨y2, ?_, h2, h3, h4, h5, fun h => h6 (List.reverse_prefix.mpr h),
      fun h => h7 (fun hp => h (List.reverse_prefix.mp hp))⟩
    unfold deref
    rw [backup_eq_along]
    exact h1
  · intro ptr y2 hy
    unfold deref at hy ⊢
    rw [backup_eq_along] at hy
    exact along_backup_get_at_inv r node.reverse root _ y2 hy

/-- Witness for C17: the child of the sample tree and the reward 1/2. -/
theorem backup_frame_witness :
    (∀ ptr y, deref sample_tree ptr = some y →
      ∃ y2, deref (backup (1 / 2) sample_tree [0]) ptr = some y2 ∧
        y2.action_from_parent = y.action_from_parent ∧
        y2.player_to_move = y.player_to_move ∧ y2.state = y.state ∧
        y2.children.length = y.children.length ∧
        (ptr <:+ [0] → y2.visits = y.visits + 1 ∧ y2.wins = y.wins + 1 / 2) ∧
        (¬ ptr <:+ [0] → y2.visits = y.visits ∧ y2.wins = y.wins)) ∧
    (∀ ptr y2, deref (backup (1 / 2) sample_tree [0]) ptr = some y2 →
      ∃ y, deref sample_tree ptr = some y) :=
  backup_frame (1 / 2) sample_tree
    (MCTSNode.mk 4 (-1) (1 / 2) 1 (TicTacToeState.init.after 4) []) [0] rfl

/-- C18: on a node `nd` of the tree with a legal action that none of its children
carries, `expand` appends exactly one child at the end of the child list of `nd` and
returns the pointer to it (its parent is `nd`).  The action of the new child is a legal
action of the state of `nd` that no existing child carries, its state is the state that
`nd.state.next_state(action)` returns, it has no visit, no win and no child; `nd` keeps
its own fields and its existing children, and every other node of the tree stays at its
place with its statistics.  If every legal action is carried by a child, `expand`
returns the node itself, and the tree and the generator are as before. -/
theorem expand_appends_child (root nd : MCTSNode) (node : Ptr) (rng : Rng)
    (hd : deref root node = some nd) :
    ((∃ a ∈ nd.state.legal_actions, ∀ c ∈ nd.children, c.action_from_parent ≠ a) →
      ∃ act st rng1 root1,
        nd.state.next_state act = Except.ok st ∧
        expand root nd node rng = Except.ok (root1, nd.children.length :: node, rng1) ∧
        root1 = update root node (fun n => n.push_child (MCTSNode.new st act)) ∧
        act ∈ nd.state.legal_actions ∧ (∀ c ∈ nd.children, c.action_from_parent ≠ act) ∧
        (∃ nd1, deref root1 node = some nd1 ∧
          nd1.children = nd.children ++ [MCTSNode.new st act] ∧
          nd1.state = nd.state ∧ nd1.visits = nd.visits ∧ nd1.wins = nd.wins ∧
          nd1.action_from_parent = nd.action_from_parent) ∧
        (∃ child, deref root1 (nd.children.length :: node) = some child ∧
          child.action_from_parent = act ∧ child.state = st ∧
          child.player_to_move = st.current_player ∧
          child.visits = 0 ∧ child.wins = 0 ∧ child.children = []) ∧
        NodeLe root root1) ∧
    ((∀ a ∈ nd.state.legal_actions, ∃ c ∈ nd.children, c.action_from_parent = a) →
      expand root nd node rng = Except.ok (root, node, rng)) := by
  constructor
  · rintro ⟨a, ha, hna⟩
    have hne : untried_actions nd ≠ [] := by
      intro h
      have : a ∈ untried_actions nd := (mem_untried_actions nd a).mpr ⟨ha, hna⟩
      rw [h] at this
      simp at this
    rcases expand_cases root nd node rng with ⟨hu, _⟩ | ⟨act, rng1, hact, he⟩
    · exact absurd hu hne
    · obtain ⟨hl, hnew⟩ := (mem_untried_actions nd act).mp hact
      refine ⟨act, nd.state.after act, rng1, _, TicTacToeState.next_state_of_mem _ act hl, he,
        rfl, hl, hnew, ?_, ?_, ?_⟩
      · exact ⟨_, deref_update root nd node _ hd, by simp, by simp, by simp, by simp, by simp⟩
      · refine ⟨MCTSNode.new (nd.state.after act) act, ?_, rfl, rfl, rfl, rfl, rfl, rfl⟩
        apply deref_update_child root nd _ node _ _ hd
        simp
      · exact nodeLe_modify_at _ (fun n => nodeLe_push_child n _) root _
  · intro hall
    rcases expand_cases root nd node rng with ⟨_, he⟩ | ⟨act, rng1, hact, _⟩
    · exact he
    · have hu := (untried_actions_eq_nil nd).mpr hall
      rw [hu] at hact
      simp at hact

/-- Witness for C18: the fresh root for the empty board. -/
theorem expand_appends_child_witness :
    ((∃ a ∈ (root_node TicTacToeState.init).state.legal_actions,
        ∀ c ∈ (root_node TicTacToeState.init).children, c.action_from_parent ≠ a) →
      ∃ act st rng1 root1,
        (root_node TicTacToeState.init).state.next_state act = Except.ok st ∧
        expand (root_node TicTacToeState.init) (root_node TicTacToeState.init) [] sample_rng =
          Except.ok (root1, (root_node TicTacToeState.init).children.length :: [], rng1) ∧
        root1 = update (root_node TicTacToeState.init) []
          (fun n => n.push_child (MCTSNode.new st act)) ∧
        act ∈ (root_node TicTacToeState.init).state.legal_actions ∧
        (∀ c ∈ (root_node TicTacToeState.init).children, c.action_from_parent ≠ act) ∧
        (∃ nd1, deref root1 [] = some nd1 ∧
          nd1.children = (root_node TicTacToeState.init).children ++ [MCTSNode.new st act] ∧
          nd1.state = (root_node TicTacToeState.init).state ∧
          nd1.visits = (root_node TicTacToeState.init).visits ∧
          nd1.wins = (root_node TicTacToeState.init).wins ∧
          nd1.action_from_parent = (root_node TicTacToeState.init).action_from_parent) ∧
        (∃ child,
          deref root1 ((root_node TicTacToeState.init).children.length :: []) = some child ∧
          child.action_from_parent = act ∧ child.state = st ∧
          child.player_to_move = st.current_player ∧
          child.visits = 0 ∧ child.wins = 0 ∧ child.children = []) ∧
        NodeLe (root_node TicTacToeState.init) root1) ∧
    ((∀ a ∈ (root_node TicTacToeState.init).state.legal_actions,
        ∃ c ∈ (root_node TicTacToeState.init).children, c.action_from_parent = a) →
      expand (root_node TicTacToeState.init) (root_node TicTacToeState.init) [] sample_rng =
        Except.ok (root_node TicTacToeState.init, [], sample_rng)) :=
  expand_appends_child (root_node TicTacToeState.init) (root_node TicTacToeState.init) []
    sample_rng rfl

/-- C15: in the tree that a round of `search` starts from (the tree after any number
of completed rounds), every node below the root has at least one visit; so wherever
`tree_policy` calls `best_uct_child`, that is at a node of this tree whose state is not
terminal and which is fully expanded, the node has a child, the visit count of the node
is at least 1, the visit count of every child is at least 1, and `best_uct_child`
returns one of the children, never the null pointer; `tree_policy` on this tree
returns a pointer to a node of the tree it leaves.  The rounds do complete when the
player of the state is 1 or -1 (rollout fuel covering the nine cells). -/
theorem best_uct_child_preconditions (m : MCTS) (fuel : Nat) (s : TicTacToeState) (rng : Rng)
    (n : Nat) :
    (∀ t g, search_loop m fuel n (root_node s) rng = Except.ok (t, g) →
      (∀ ptr x, deref t ptr = some x → ptr ≠ [] → 1 ≤ x.visits) ∧
      (∀ ptr x, deref t ptr = some x → x.state.is_terminal = false →
        x.is_fully_expanded = true →
        x.children ≠ [] ∧ 1 ≤ x.visits ∧ (∀ c ∈ x.children, 1 ≤ c.visits) ∧
        ∃ j c, best_uct_child m x = some j ∧ x.children[j]? = some c) ∧
      ∃ t1 node g1, tree_policy m t t [] g = Except.ok (t1, node, g1) ∧
        ∃ y, deref t1 node = some y) ∧
    ((s.player = 1 ∨ s.player = -1) → 9 ≤ fuel →
      ∃ t g, search_loop m fuel n (root_node s) rng = Except.ok (t, g)) := by
  constructor
  · intro t g hl
    have ht := (search_loop_shape m fuel n s rng t g hl).2
    refine ⟨fun ptr x hx hne => (treeOk_deref_nonroot 0 t x ptr ht hx hne).2, ?_, ?_⟩
    · intro ptr x hx hnt hf
      obtain ⟨h1, h2, h3⟩ := treeOk_selection_ready t x ptr ht hx hnt hf
      exact ⟨h1, h2, h3, best_uct_child_some m x h1⟩
    · obtain ⟨t1, node, g1, htp, hg⟩ := tree_policy_grown m t g
      exact ⟨t1, node, g1, htp, grown_deref hg⟩
  · intro hp hfuel
    exact search_loop_total m fuel hfuel n (root_node s) rng (player_ne_zero_root_node s hp)

/-- C19: in the tree after any number of rounds of `search`, and in the tree that
`tree_policy` leaves in the next round, the children of each node carry pairwise
distinct actions, each a legal action of the state of the node, and the state of each
child is the state that `next_state` returns for that action on the state of the node;
therefore `is_fully_expanded()` is true at a node exactly when every legal action of its state is
the action of one of its children.  The rounds do complete when the player of the state
is 1 or -1 (rollout fuel covering the nine cells). -/
theorem reachable_children_well_formed (m : MCTS) (fuel : Nat) (s : TicTacToeState)
    (rng : Rng) (n : Nat) :
    (∀ t g, search_loop m fuel n (root_node s) rng = Except.ok (t, g) →
      (∀ ptr x, deref t ptr = some x →
        (x.children.map MCTSNode.action_from_parent).Nodup ∧
        (∀ c ∈ x.children, c.action_from_parent ∈ x.state.legal_actions ∧
          x.state.next_state c.action_from_parent = Except.ok c.state) ∧
        (x.is_fully_expanded = true ↔
          ∀ a ∈ x.state.legal_actions, ∃ c ∈ x.children, c.action_from_parent = a)) ∧
      (∀ t1 node g1, tree_policy m t t [] g = Except.ok (t1, node, g1) →
        ∀ ptr x, deref t1 ptr = some x →
          (x.children.map MCTSNode.action_from_parent).Nodup ∧
          (∀ c ∈ x.children, c.action_from_parent ∈ x.state.legal_actions ∧
            x.state.next_state c.action_from_parent = Except.ok c.state) ∧
          (x.is_fully_expanded = true ↔
            ∀ a ∈ x.state.legal_actions, ∃ c ∈ x.children, c.action_from_parent = a))) ∧
    ((s.player = 1 ∨ s.player = -1) → 9 ≤ fuel →
      ∃ t g, search_loop m fuel n (root_node s) rng = Except.ok (t, g)) := by
  constructor
  · intro t g hl
    have hc := (search_loop_shape m fuel n s rng t g hl).1
    constructor
    · intro ptr x hx
      have hcx : ChildrenOk x := hc.deref hx
      exact ⟨hcx.1, childrenOk_next_state x hcx, childrenOk_fully_expanded x hcx⟩
    · intro t1 node g1 htp ptr x hx
      have hcx : ChildrenOk x := (tree_policy_childrenOk m t g t1 node g1 hc htp).deref hx
      exact ⟨hcx.1, childrenOk_next_state x hcx, childrenOk_fully_expanded x hcx⟩
  · intro hp hfuel
    exact search_loop_total m fuel hfuel n (root_node s) rng (player_ne_zero_root_node s hp)

/-- C20: after every completed round of `search`, a root with a non-terminal state has
as many visits as its children together; every other node with a non-terminal state has
one visit more than its children together; every node with a terminal state has no
children; and once a round has run, every node of the tree has at least one visit.  The
rounds do complete when the player of the state is 1 or -1 (rollout fuel covering the
nine cells). -/
theorem visit_conservation (m : MCTS) (fuel : Nat) (s : TicTacToeState) (rng : Rng) (n : Nat) :
    (∀ t g, search_loop m fuel n (root_node s) rng = Except.ok (t, g) →
      (t.state.is_terminal = false → t.visits = child_visits t) ∧
      (∀ ptr x, deref t ptr = some x → ptr ≠ [] → x.state.is_terminal = false →
        x.visits = 1 + child_visits x) ∧
      (∀ ptr x, deref t ptr = some x → x.state.is_terminal = true → x.children = []) ∧
      (1 ≤ n → ∀ ptr x, deref t ptr = some x → 1 ≤ x.visits)) ∧
    ((s.player = 1 ∨ s.player = -1) → 9 ≤ fuel →
      ∃ t g, search_loop m fuel n (root_node s) rng = Except.ok (t, g)) := by
  constructor
  · intro t g hl
    have ht := (search_loop_shape m fuel n s rng t g hl).2
    have hroot : ∀ x, deref t [] = some x → x = t := by
      intro x hx
      simp only [deref, List.reverse_nil, get_at, Option.some.injEq] at hx
      exact hx.symm
    refine ⟨fun hnt => ?_, fun ptr x hx hne hnt => ?_, fun ptr x hx hterm => ?_,
      fun hn ptr x hx => ?_⟩
    · have := ht.1.2 hnt
      omega
    · exact (treeOk_deref_nonroot 0 t x ptr ht hx hne).1.2 hnt
    · by_cases hp : ptr = []
      · subst hp
        rw [hroot x hx] at hterm ⊢
        exact ht.1.1 hterm
      · exact (treeOk_deref_nonroot 0 t x ptr ht hx hp).1.1 hterm
    · by_cases hp : ptr = []
      · subst hp
        rw [hroot x hx]
        have hv := (search_loop_visits m fuel n (root_node s) rng t g hl).1
        have h0 : (root_node s).visits = 0 := rfl
        rw [h0] at hv
        omega
      · exact (treeOk_deref_nonroot 0 t x ptr ht hx hp).2
  · intro hp hfuel
    exact search_loop_total m fuel hfuel n (root_node s) rng (player_ne_zero_root_node s hp)


end MCTSTicTacToe
